import Mathlib

/-!
Verification of the scriptorium publisher: the event-graph compiler
(nkbip_bookstr.py, util.py), the event signer and relay publish/QC client
(nostr_client.py), and the publish/generate command handlers.

Strings manipulated by the identifier pipeline are modelled as lists of
characters; tag values and event fields use Lean strings built from those
lists.  Python dictionaries are modelled as association lists where an
update conses a fresh binding in front and lookup returns the first match,
so the latest write wins exactly as in the source.
-/

set_option autoImplicit false

namespace Scriptorium

/-! ## Character and list-of-character primitives -/

/-- Lowercase ASCII letter or ASCII digit: the character class [a-z0-9]. -/
def isLowerAlnum (c : Char) : Bool :=
  (('a' ≤ c && c ≤ 'z') || ('0' ≤ c && c ≤ '9'))

/-- Character allowed in a strict slug: [a-z0-9-]. -/
def isSlugChar (c : Char) : Bool :=
  isLowerAlnum c || c = '-'

/-- ASCII digit test, mirroring the Python str.isdigit calls on ASCII data. -/
def isDigitChar (c : Char) : Bool :=
  '0' ≤ c && c ≤ '9'

/-- Remove the characters satisfying p from both ends (Python str.strip family). -/
def trimBy (p : Char → Bool) (l : List Char) : List Char :=
  ((l.dropWhile p).reverse.dropWhile p).reverse

/-- Collapse every run of two or more hyphens to a single hyphen
(the re.sub of "-+" / "-{2,}" to "-" used throughout the source). -/
def collapseHyphens : List Char → List Char
  | [] => []
  | [c] => [c]
  | a :: b :: t =>
    if a = '-' && b = '-' then collapseHyphens (b :: t)
    else a :: collapseHyphens (b :: t)

/-- Python "x".split("-") on character lists. -/
def splitHyphen (l : List Char) : List (List Char) :=
  l.splitOn '-'

/-- Python "-".join(parts) on character lists. -/
def joinHyphen : List (List Char) → List Char
  | [] => []
  | [p] => p
  | p :: rest => p ++ '-' :: joinHyphen rest

/-- Nonempty and all digits: Python str.isdigit. -/
def isDigits (l : List Char) : Bool :=
  !l.isEmpty && l.all isDigitChar

/-- Whether needle occurs as a contiguous substring of hay (Python in operator). -/
def containsSub (hay needle : List Char) : Bool :=
  decide (needle <:+: hay)

/-- Python str.replace with explicit fuel, which only needs to be an upper
bound on the list length: replace every non-overlapping occurrence of
needle by repl, scanning left to right. -/
def replaceAllF (needle repl : List Char) : Nat → List Char → List Char
  | _, [] => []
  | 0, l => l
  | fuel + 1, c :: rest =>
    if needle ≠ [] ∧ needle.isPrefixOf (c :: rest) then
      repl ++ replaceAllF needle repl fuel ((c :: rest).drop needle.length)
    else
      c :: replaceAllF needle repl fuel rest

/-- Python str.replace: the fuel equals the length of the list, which
suffices because a nonempty needle consumes at least one character per
replacement. -/
def replaceAll (needle repl : List Char) (l : List Char) : List Char :=
  replaceAllF needle repl l.length l

/-! ## Lemmas about the primitives -/

theorem trimBy_sublist (p : Char → Bool) (l : List Char) :
    (trimBy p l).Sublist l := by
  unfold trimBy
  have h1 : (l.dropWhile p).Sublist l := List.dropWhile_sublist p
  have h2 : (((l.dropWhile p).reverse.dropWhile p)).Sublist (l.dropWhile p).reverse :=
    List.dropWhile_sublist p
  have h3 := h2.reverse
  simp only [List.reverse_reverse] at h3
  exact h3.trans h1

theorem collapseHyphens_sublist (l : List Char) :
    (collapseHyphens l).Sublist l := by
  induction l with
  | nil => simp [collapseHyphens]
  | cons a t ih =>
    cases t with
    | nil => simp [collapseHyphens]
    | cons b t2 =>
      simp only [collapseHyphens]
      by_cases h : a = '-' && b = '-'
      · simp only [h, if_pos rfl]
        exact (ih).cons a
      · simp only [h]
        simpa using (ih).cons₂ a

theorem mem_collapseHyphens {c : Char} {l : List Char}
    (h : c ∈ collapseHyphens l) : c ∈ l :=
  (collapseHyphens_sublist l).mem h

theorem mem_trimBy {p : Char → Bool} {c : Char} {l : List Char}
    (h : c ∈ trimBy p l) : c ∈ l :=
  (trimBy_sublist p l).mem h

theorem length_collapseHyphens_le (l : List Char) :
    (collapseHyphens l).length ≤ l.length :=
  (collapseHyphens_sublist l).length_le

theorem length_trimBy_le (p : Char → Bool) (l : List Char) :
    (trimBy p l).length ≤ l.length :=
  (trimBy_sublist p l).length_le

/-! ## util.slugify_strict

Python: strip and lowercase, NFKD-decompose and drop non-ASCII code points,
replace every run of characters outside [a-z0-9] with a single hyphen,
collapse repeated hyphens, trim hyphens at the ends.  The NFKD
transliteration step is modelled as the identity on code points (non-ASCII
characters are simply dropped, as the subsequent encode("ascii","ignore")
does); every later stage is modelled exactly. -/
def slugifyStrict (l : List Char) : List Char :=
  let s1 := (trimBy Char.isWhitespace l).map Char.toLower
  let s2 := s1.filter (fun c => c.toNat < 128)
  let s3 := collapseHyphens (s2.map (fun c => if isLowerAlnum c then c else '-'))
  trimBy (fun c => c = '-') (collapseHyphens s3)

/-! ## util.compress_slug_parts -/

/-- Abbreviate every part except the last two to its first k characters
(the p[:6] and p[:3] steps of compress_slug_parts). -/
def abbrevParts (k : Nat) (parts : List (List Char)) : List (List Char) :=
  parts.mapIdx (fun i p => if i < parts.length - 2 then p.take k else p)

/-- Step 4 of compress_slug_parts: drop parts from the left while the joined
slug is too long and more than two parts remain; the last two parts are
never dropped. -/
def compressStep4 (maxLen : Nat) : List (List Char) → List Char
  | [] => joinHyphen []
  | p :: rest =>
    if (joinHyphen (p :: rest)).length > maxLen ∧ (p :: rest).length > 2 then
      compressStep4 maxLen rest
    else joinHyphen (p :: rest)

/-- util.compress_slug_parts: join parts with hyphens under a length ceiling,
first abbreviating non-leaf parts (all but the last two) to 6 then 3
characters, then dropping leftmost parts; the final two parts are returned
in full even when they alone exceed the ceiling. -/
def compressSlugParts (parts : List (List Char)) (maxLen : Nat) : List Char :=
  let filtered := parts.filter (fun p => !p.isEmpty)
  if filtered.isEmpty then [] else
  let d := joinHyphen filtered
  if d.length ≤ maxLen then d else
  if filtered.length > 2 then
    let abr := abbrevParts 6 filtered
    let d2 := joinHyphen abr
    if d2.length ≤ maxLen then d2 else
    let abr3 := abbrevParts 3 filtered
    let d3 := joinHyphen abr3
    if d3.length ≤ maxLen then d3 else
    compressStep4 maxLen abr3
  else
    compressStep4 maxLen filtered

/-! ## The d-tag regular expression of the specification

A character list matches the regex of the claim
(one or more [a-z0-9] groups joined by single hyphens)
exactly when splitting on hyphens yields only nonempty all-alphanumeric
groups and the list itself is nonempty. -/
def matchesDTag (l : List Char) : Bool :=
  !l.isEmpty && (splitHyphen l).all (fun p => !p.isEmpty && p.all isLowerAlnum)

/-! ## nkbip_bookstr._d_for -/

/-- The abbreviation map for common collection/part names (segment_abbrev_map). -/
def segmentAbbrevPairs : List (List Char × List Char) :=
  [("old-testament", "ot"), ("new-testament", "nt"), ("according", "acc"),
   ("verse", "v"), ("chapter", "ch"), ("section", "s"),
   ("introduction", "intro"), ("book", "bk"), ("book-of", "bk"),
   ("book-of-the", "bk"), ("act", "a")].map (fun p => (p.1.data, p.2.data))

/-- Stop words removed from interior segments (stop_words). -/
def stopWordList : List (List Char) :=
  ["the", "of", "to", "and", "a", "an", "in", "on", "at", "for", "with",
   "by", "st", "saint"].map String.data

/-- Keywords marking a segment as a book title (book_title_keywords). -/
def bookTitleKeywords : List (List Char) :=
  ["gospel", "book", "epistle", "prophecy", "psalm", "proverb", "kings",
   "machabees", "paralipomenon", "esdras", "corinthians", "thessalonians",
   "timothy", "titus", "peter", "john", "jude", "revelation", "apocalypse",
   "acts", "romans", "hebrews"].map String.data

def abbrevLookup (w : List Char) : Option (List Char) :=
  (segmentAbbrevPairs.find? (fun p => p.1 = w)).map (fun p => p.2)

/-- Matches the Python regex for multi-number sections: one or more digit
groups joined by hyphens, at least two groups. -/
def isMultiNumber (l : List Char) : Bool :=
  (splitHyphen l).length ≥ 2 && (splitHyphen l).all isDigits

/-- State threaded through the segment-processing loop of _d_for. -/
structure DForState where
  processed : List (List Char)
  seenWords : List (List Char)
  bookIdx : List Nat
  deriving Repr, DecidableEq

/-- One word of a segment inside the word loop of _d_for: abbreviation
substitution, stop-word and duplicate filtering, seen-word tracking.
The accumulator carries the filtered words so far and the seen-word set. -/
def substWord (word0 : List Char) : List Char :=
  match abbrevLookup word0 with
  | some v => v
  | none =>
    if word0 = "old".data then "ot".data
    else if word0 = "new".data then "nt".data
    else word0

def procWord (isBook interior : Bool) (processedLen : Nat)
    (acc : List (List Char) × List (List Char)) (word0 : List Char) :
    List (List Char) × List (List Char) :=
  let fw := acc.1
  let seen := acc.2
  let w := substWord word0
  if isBook then
    if w ∈ stopWordList ∧ w.length ≤ 2 then acc else (fw ++ [w], seen)
  else if interior ∧ w ∈ stopWordList then acc
  else if w ∈ seen ∧ processedLen > 0 ∧ ¬isDigits w ∧
      (w ∈ stopWordList ∨ w.length ≤ 2) then acc
  else (fw ++ [w], if isDigits w then seen else seen ++ [w])

/-- The combine pass on filtered words: remove a "t" that directly follows
"ot" or "nt" (first occurrence only, then stop). -/
def combineOtNt : List (List Char) → List (List Char)
  | [] => []
  | [x] => [x]
  | x :: y :: t =>
    if (x = "ot".data ∧ y = "t".data) ∨ (x = "nt".data ∧ y = "t".data) then
      x :: t
    else x :: combineOtNt (y :: t)

/-- The old/new-testament substring replacement applied to a segment. -/
def testamentSubst (segment : List Char) : List Char :=
  if containsSub segment "old-testament".data then
    replaceAll "old-testament".data "ot".data segment
  else if containsSub segment "new-testament".data then
    replaceAll "new-testament".data "nt".data segment
  else segment

/-- The word-splitting part of the segment loop of _d_for: testament
substring replacement, word loop, the ot/nt combine pass, join with
hyphen cleanup, and the conditional append with book-title tracking. -/
def procSegmentWords (n : Nat) (st : DForState) (i : Nat)
    (segment : List Char) : DForState :=
  let isBook := bookTitleKeywords.any (fun k => containsSub segment k)
  let seg2 := testamentSubst segment
  let words := splitHyphen seg2
  let res := words.foldl
    (procWord isBook (decide (0 < i ∧ i < n - 1)) st.processed.length)
    ([], st.seenWords)
  let fw2 := combineOtNt res.1
  let ps := trimBy (fun c => c = '-') (collapseHyphens (joinHyphen fw2))
  if ps.isEmpty then { st with seenWords := res.2 }
  else
    { processed := st.processed ++ [ps],
      seenWords := res.2,
      bookIdx :=
        if isBook then st.bookIdx ++ [st.processed.length] else st.bookIdx }

/-- One segment of the main processing loop of _d_for; n is the number of
segments, i the index of this segment. -/
def procSegment (n : Nat) (st : DForState) (i : Nat) (segment : List Char) :
    DForState :=
  if isMultiNumber segment then
    { st with processed := st.processed ++ [('s' :: '-' :: segment)] }
  else if isDigits segment then
    { st with processed := st.processed ++ [segment] }
  else
    match abbrevLookup segment with
    | some ab =>
      { st with processed := st.processed ++ [ab],
                seenWords := st.seenWords ++ [ab] }
    | none => procSegmentWords n st i segment

/-- Passes 1 and 4 of _d_for: remove exact consecutive duplicate segments. -/
def dedupConsec : List (List Char) → List (List Char)
  | [] => []
  | [x] => [x]
  | x :: y :: t =>
    if x = y then dedupConsec (y :: t) else x :: dedupConsec (y :: t)

/-- Pass 2 of _d_for: remove a single-word segment that is a prefix of the
next segment, or a single-word next segment that is a suffix of the current
one, skipping book-title segments, with index adjustment of the book-title
set after each removal. -/
def pass2F : Nat → List (List Char) → List Nat → Nat →
    List (List Char) × List Nat
  | 0, processed, bti, _ => (processed, bti)
  | fuel + 1, processed, bti, i =>
    if i + 1 < processed.length then
      if i ∈ bti ∨ (i + 1) ∈ bti then pass2F fuel processed bti (i + 1)
      else
        let current := processed.getD i []
        let nextSeg := processed.getD (i + 1) []
        if (splitHyphen current).length = 1 ∧
            (current ++ ['-']).isPrefixOf nextSeg then
          pass2F fuel (processed.eraseIdx i)
            (bti.map (fun idx => if idx > i then idx - 1 else idx)) i
        else if (splitHyphen nextSeg).length = 1 ∧
            (('-' :: nextSeg)).isSuffixOf current then
          pass2F fuel (processed.eraseIdx (i + 1))
            (bti.map (fun idx => if idx > i + 1 then idx - 1 else idx)) i
        else pass2F fuel processed bti (i + 1)
    else (processed, bti)

/-- Pass 2 of _d_for as a while loop; every iteration either advances the
index or shortens the list, so a fuel of the list length plus one covers
every run (proved in the fuel-irrelevance lemma below). -/
def pass2 (processed : List (List Char)) (bti : List Nat) (i : Nat) :
    List (List Char) × List Nat :=
  pass2F (processed.length + 1) processed bti i

/-- Pass 3 of _d_for: when the last word of a segment equals the first word
of the next (long, non-numeric), drop that word from the next segment
(or drop the next segment entirely if it was that single word), skipping
book-title segments. -/
def pass3F : Nat → List (List Char) → List Nat → Nat →
    List (List Char) × List Nat
  | 0, processed, bti, _ => (processed, bti)
  | fuel + 1, processed, bti, i =>
    if i + 1 < processed.length then
      if i ∈ bti ∨ (i + 1) ∈ bti then pass3F fuel processed bti (i + 1)
      else
        let cw := splitHyphen (processed.getD i [])
        let nw := splitHyphen (processed.getD (i + 1) [])
        let lastW := (cw.getLast?).getD []
        let firstW := (nw.head?).getD []
        if ¬isDigits lastW ∧ ¬isDigits firstW ∧ lastW = firstW ∧
            lastW.length > 2 then
          if nw.length > 1 then
            pass3F fuel (processed.set (i + 1) (joinHyphen nw.tail)) bti (i + 1)
          else
            pass3F fuel (processed.eraseIdx (i + 1))
              (bti.map (fun idx => if idx > i + 1 then idx - 1 else idx)) i
        else pass3F fuel processed bti (i + 1)
    else (processed, bti)

/-- Pass 3 of _d_for as a while loop; every iteration either advances the
index or shortens the list, so a fuel of the list length plus one covers
every run (proved in the fuel-irrelevance lemma below). -/
def pass3 (processed : List (List Char)) (bti : List Nat) (i : Nat) :
    List (List Char) × List Nat :=
  pass3F (processed.length + 1) processed bti i

/-- The group captured by the Python regex (?P.+)-chapter-[0-9]+ anchored at
both ends: everything before the final "-chapter-" that is followed only by
digits; none when the regex does not match. -/
def chapterSuffixBase (l : List Char) : Option (List Char) :=
  let ds := (l.reverse.takeWhile isDigitChar).reverse
  if ds.isEmpty then none
  else
    let pre := l.take (l.length - ds.length)
    if ("-chapter-".data).isSuffixOf pre ∧ pre.length > 9 then
      some (pre.take (pre.length - 9))
    else none

/-- The Python verse-index regex: digits, optionally followed by a hyphen,
at least one more digit and then anything. -/
def matchesVerseTail (l : List Char) : Bool :=
  let d1 := l.takeWhile isDigitChar
  let rest := l.drop d1.length
  if d1.isEmpty then false
  else
    match rest with
    | [] => true
    | c :: r =>
      c = '-' && (match r with
        | [] => false
        | c2 :: _ => isDigitChar c2)

/-- The Bible-like tail compression of _d_for: if the penultimate segment is
of the form base-chapter-N and the last segment is a verse index, replace the
penultimate segment by base. -/
def bibleTail (processed : List (List Char)) : List (List Char) :=
  if processed.length ≥ 2 then
    let penult := processed.getD (processed.length - 2) []
    let last := processed.getD (processed.length - 1) []
    match chapterSuffixBase penult with
    | some base =>
      if matchesVerseTail last then
        processed.set (processed.length - 2) base
      else processed
    | none => processed
  else processed

/-- The normalized segment list of _d_for: slugify the nonempty parts and
drop empty results and the generic segment "adoc". -/
def dForNorm (parts : List (List Char)) : List (List Char) :=
  let norm0 := (parts.filter (fun p => !p.isEmpty)).map slugifyStrict
  let norm1 := norm0.filter (fun p => !p.isEmpty && p ≠ "adoc".data)
  norm1.filter (fun p => !p.isEmpty)

/-- All stages of _d_for up to and including the per-part final cleanup:
the segment loop with abbreviations, stop words and seen-word
deduplication, the four duplicate-removal passes, the Bible-like tail
compression and the per-part hyphen cleanup.  These are the parts handed
to compress_slug_parts. -/
def dForFinalParts (parts : List (List Char)) : List (List Char) :=
  let norm := dForNorm parts
  if norm.isEmpty then [] else
  let st := norm.enum.foldl
    (fun st ip => procSegment norm.length st ip.1 ip.2)
    (DForState.mk [] [] [])
  let processed0 := if st.processed.isEmpty then norm else st.processed
  let p1 := dedupConsec processed0
  let pb2 := pass2 p1 st.bookIdx 0
  let pb3 := pass3 pb2.1 pb2.2 0
  let p4 := dedupConsec pb3.1
  let p5 := bibleTail p4
  let finalParts0 :=
    (p5.map (fun part => trimBy (fun c => c = '-') (collapseHyphens part))).filter
      (fun p => !p.isEmpty)
  if finalParts0.isEmpty then p5 else finalParts0

/-- nkbip_bookstr._d_for on character lists: build a strict d-tag from
hierarchy parts, joining the processed parts through compress_slug_parts
with ceiling 75 and applying the final hyphen collapse and trim.  (When
the normalized segment list is empty the source returns "" early; here
the final parts are empty so the same result falls out.) -/
def dForL (parts : List (List Char)) : List Char :=
  trimBy (fun c => c = '-')
    (collapseHyphens (compressSlugParts (dForFinalParts parts) 75))

/-- _d_for on strings, as used by the compiler. -/
def dFor (parts : List String) : String :=
  String.mk (dForL (parts.map String.data))

/-! ## Shape of the derived identifiers -/

/-- No two adjacent hyphens. -/
def NoDoubleHyphen (l : List Char) : Prop :=
  l.Chain' (fun a b => ¬(a = '-' ∧ b = '-'))

theorem collapseHyphens_head? (l : List Char) :
    (collapseHyphens l).head? = l.head? := by
  induction l using collapseHyphens.induct with
  | case1 => rfl
  | case2 c => rfl
  | case3 a b t h ih =>
    rw [collapseHyphens, if_pos h, ih]
    simp only [Bool.and_eq_true, decide_eq_true_eq] at h
    simp [h.1, h.2]
  | case4 a b t h ih => rw [collapseHyphens, if_neg h]; rfl

theorem collapseHyphens_chain (l : List Char) :
    NoDoubleHyphen (collapseHyphens l) := by
  induction l using collapseHyphens.induct with
  | case1 => simp [NoDoubleHyphen, collapseHyphens]
  | case2 c => simp [NoDoubleHyphen, collapseHyphens]
  | case3 a b t h ih => rw [collapseHyphens, if_pos h]; exact ih
  | case4 a b t h ih =>
    rw [collapseHyphens, if_neg h]
    rcases hc : collapseHyphens (b :: t) with _ | ⟨x, t2⟩
    · simp [NoDoubleHyphen]
    · have hx : x = b := by
        have hh := collapseHyphens_head? (b :: t)
        rw [hc] at hh
        simpa using hh
      refine List.Chain'.cons ?_ (hc ▸ ih)
      subst hx
      simp only [Bool.and_eq_true, decide_eq_true_eq] at h
      tauto

theorem trimBy_infixOf (p : Char → Bool) (l : List Char) :
    trimBy p l <:+: l := by
  have h1 : trimBy p l <+: l.dropWhile p := by
    have := List.rdropWhile_prefix p (l.dropWhile p)
    simpa [trimBy, List.rdropWhile] using this
  exact h1.isInfix.trans (List.dropWhile_suffix p).isInfix

theorem trimBy_chain {R : Char → Char → Prop} {p : Char → Bool} {l : List Char}
    (h : l.Chain' R) : (trimBy p l).Chain' R :=
  h.infix (trimBy_infixOf p l)

theorem head?_dropWhile_not (p : Char → Bool) (l : List Char) {c : Char}
    (h : (l.dropWhile p).head? = some c) : p c = false := by
  induction l with
  | nil => simp at h
  | cons a t ih =>
    by_cases hp : p a
    · rw [List.dropWhile_cons_of_pos hp] at h
      exact ih h
    · rw [List.dropWhile_cons_of_neg hp] at h
      simp only [List.head?_cons, Option.some.injEq] at h
      subst h
      simpa using hp

theorem trimBy_head? {p : Char → Bool} {l : List Char} {c : Char}
    (h : (trimBy p l).head? = some c) : p c = false := by
  have hpre : trimBy p l <+: l.dropWhile p := by
    have := List.rdropWhile_prefix p (l.dropWhile p)
    simpa [trimBy, List.rdropWhile] using this
  have hne : trimBy p l ≠ [] := by
    intro hnil; rw [hnil] at h; simp at h
  have hhd : (l.dropWhile p).head? = some c := by
    obtain ⟨t, ht⟩ := hpre
    rw [← ht]
    rcases he : trimBy p l with _ | ⟨x, xs⟩
    · exact absurd he hne
    · rw [he] at h; simp at h; simp [h]
  exact head?_dropWhile_not p l hhd

theorem splitOnP_sep {α : Type} (p : α → Bool) (g l2 : List α) (x : α)
    (hg : ∀ a ∈ g, p a = false) (hx : p x = true) :
    (g ++ x :: l2).splitOnP p = g :: l2.splitOnP p := by
  induction g with
  | nil => simp [List.splitOnP_cons, hx]
  | cons a t ih =>
    have ha : p a = false := hg a (by simp)
    rw [List.cons_append, List.splitOnP_cons, ha]
    simp only [Bool.false_eq_true, if_false]
    rw [ih (fun b hb => hg b (by simp [hb]))]
    rfl

theorem isLowerAlnum_of_slug {c : Char} (h : isSlugChar c = true)
    (hne : c ≠ '-') : isLowerAlnum c = true := by
  unfold isSlugChar at h
  rcases Bool.or_eq_true_iff.mp h with h1 | h1
  · exact h1
  · exact absurd (by simpa using h1) hne

theorem matchesDTag_of_shape (n : Nat) :
    ∀ l : List Char, l.length ≤ n → l ≠ [] →
    (∀ c ∈ l, isSlugChar c = true) → NoDoubleHyphen l →
    (∀ c, l.head? = some c → c ≠ '-') →
    (∀ c, l.getLast? = some c → c ≠ '-') →
    matchesDTag l = true := by
  induction n with
  | zero =>
    intro l hlen hne
    cases l with
    | nil => exact absurd rfl hne
    | cons a t => simp at hlen
  | succ n ih =>
    intro l hlen hne hslug hchain hhead hlast
    set g := l.takeWhile (fun c => !(c == '-')) with hg
    set r := l.dropWhile (fun c => !(c == '-')) with hr
    have hgr : g ++ r = l := by rw [hg, hr]; apply List.takeWhile_append_dropWhile
    have hgmem : ∀ a ∈ g, (a == '-') = false := by
      intro a ha
      have := List.mem_takeWhile_imp ha
      simpa using this
    cases hre : r with
    | nil =>
      have hall : ∀ x ∈ l, ¬((x == '-') = true) := by
        intro x hx
        have : ∀ y ∈ l, (fun c => !(c == '-')) y = true := by
          rw [← List.dropWhile_eq_nil_iff (p := fun c => !(c == '-'))]
          rw [← hr, hre]
        have := this x hx
        simpa using this
      have hsingle : splitHyphen l = [l] := by
        unfold splitHyphen List.splitOn
        exact List.splitOnP_eq_single _ _ hall
      unfold matchesDTag
      rw [hsingle]
      simp only [List.all_cons, List.all_nil, Bool.and_true, Bool.and_eq_true]
      refine ⟨by simpa using hne, by simpa using hne, ?_⟩
      rw [List.all_eq_true]
      intro c hc
      refine isLowerAlnum_of_slug (hslug c hc) ?_
      intro habs
      exact (hall c hc) (by simp [habs])
    | cons x r2 =>
      have hx : x = '-' := by
        have := head?_dropWhile_not (fun c => !(c == '-')) l
          (c := x) (by rw [← hr, hre]; rfl)
        simpa using this
      subst hx
      have hl2 : l = g ++ '-' :: r2 := by rw [← hgr, hre]
      have hgne : g ≠ [] := by
        intro habs
        rw [habs, List.nil_append] at hl2
        exact hhead '-' (by rw [hl2]; rfl) rfl
      have hr2ne : r2 ≠ [] := by
        intro habs
        rw [habs] at hl2
        have : l.getLast? = some '-' := by
          rw [hl2]
          exact List.getLast?_concat _
        exact hlast '-' this rfl
      have hsplit : splitHyphen l = g :: splitHyphen r2 := by
        unfold splitHyphen List.splitOn
        rw [hl2]
        exact splitOnP_sep _ g r2 '-' hgmem (by simp)
      have hchain2 : NoDoubleHyphen ('-' :: r2) := by
        have hsuf : ('-' :: r2) <:+ l := by
          rw [← hre, hr]
          exact List.dropWhile_suffix _
        exact List.Chain'.suffix hchain hsuf
      have hr2 : matchesDTag r2 = true := by
        refine ih r2 ?_ hr2ne ?_ ?_ ?_ ?_
        · have : l.length = g.length + 1 + r2.length := by
            rw [hl2]; simp; omega
          omega
        · intro c hc
          exact hslug c (by rw [hl2]; simp [hc])
        · exact hchain2.tail
        · intro c hc habs
          cases r2 with
          | nil => exact hr2ne rfl
          | cons y t2 =>
            simp only [List.head?_cons, Option.some.injEq] at hc
            subst hc
            unfold NoDoubleHyphen at hchain2
            rw [List.chain'_cons] at hchain2
            exact hchain2.1 ⟨rfl, habs⟩
        · intro c hc
          refine hlast c ?_
          rw [hl2, List.getLast?_append_cons,
            show ('-' :: r2) = ['-'] ++ r2 from rfl,
            List.getLast?_append_of_ne_nil _ hr2ne]
          exact hc
      unfold matchesDTag at hr2 ⊢
      rw [hsplit]
      simp only [Bool.and_eq_true, List.all_cons] at hr2 ⊢
      refine ⟨by simpa using hne, ⟨?_, ?_⟩, hr2.2⟩
      · simpa using hgne
      · rw [List.all_eq_true]
        intro c hc
        refine isLowerAlnum_of_slug (hslug c (by rw [hl2]; simp [hc])) ?_
        intro habs
        have := hgmem c hc
        rw [habs] at this
        simp at this

theorem trimBy_getLast? {p : Char → Bool} {l : List Char} {c : Char}
    (h : (trimBy p l).getLast? = some c) : p c = false := by
  have hne : trimBy p l ≠ [] := by
    intro hnil; rw [hnil] at h; simp at h
  have hlast := List.rdropWhile_last_not p (l.dropWhile p)
    (by simpa [trimBy, List.rdropWhile] using hne)
  have : (trimBy p l).getLast hne = c := (List.getLast_eq_iff_getLast?_eq_some hne).mpr h
  rw [← this]
  have heq : trimBy p l = List.rdropWhile p (l.dropWhile p) := by
    simp [trimBy, List.rdropWhile]
  revert hlast
  simp only [← heq]
  intro hlast
  simpa using hlast

/-! ## Character-set preservation through the _d_for pipeline -/

/-- Every character of the output of slugify_strict is in [a-z0-9-]. -/
theorem slugifyStrict_slug (l : List Char) :
    ∀ c ∈ slugifyStrict l, isSlugChar c = true := by
  intro c hc
  unfold slugifyStrict at hc
  have h1 := mem_trimBy hc
  have h2 := mem_collapseHyphens h1
  have h3 := mem_collapseHyphens h2
  rcases List.mem_map.mp h3 with ⟨c0, _, hco⟩
  by_cases hsl : isLowerAlnum c0
  · rw [if_pos hsl] at hco
    subst hco
    simp [isSlugChar, hsl]
  · rw [if_neg hsl] at hco
    subst hco
    simp [isSlugChar]

theorem mem_of_find? {α : Type} {p : α → Bool} :
    ∀ {l : List α} {a : α}, l.find? p = some a → a ∈ l := by
  intro l
  induction l with
  | nil => intro a h; simp at h
  | cons x t ih =>
    intro a h
    rw [List.find?_cons] at h
    by_cases hp : p x
    · simp only [hp, cond_true, Option.some.injEq] at h
      subst h
      exact List.mem_cons_self x t
    · simp only [Bool.not_eq_true] at hp
      simp only [hp, cond_false] at h
      exact List.mem_cons_of_mem x (ih h)

theorem segmentAbbrevPairs_slug :
    ∀ pr ∈ segmentAbbrevPairs, ∀ c ∈ pr.2, isSlugChar c = true := by decide

theorem abbrevLookup_slug {w v : List Char} (h : abbrevLookup w = some v) :
    ∀ c ∈ v, isSlugChar c = true := by
  unfold abbrevLookup at h
  rcases hf : segmentAbbrevPairs.find? (fun p => p.1 = w) with _ | pr
  · rw [hf] at h; simp at h
  · rw [hf] at h
    simp only [Option.map_some', Option.some.injEq] at h
    subst h
    exact segmentAbbrevPairs_slug pr (mem_of_find? hf)

/-- Characters of a hyphen-join are hyphens or characters of the parts. -/
theorem mem_joinHyphen {a : Char} :
    ∀ {parts : List (List Char)}, a ∈ joinHyphen parts →
      a = '-' ∨ ∃ p ∈ parts, a ∈ p := by
  intro parts
  induction parts with
  | nil => intro h; simp [joinHyphen] at h
  | cons p rest ih =>
    intro h
    cases rest with
    | nil =>
      right; exact ⟨p, by simp, by simpa [joinHyphen] using h⟩
    | cons q rest2 =>
      have hj : joinHyphen (p :: q :: rest2) = p ++ '-' :: joinHyphen (q :: rest2) := rfl
      rw [hj] at h
      rcases List.mem_append.mp h with h1 | h1
      · right; exact ⟨p, by simp, h1⟩
      · rcases List.mem_cons.mp h1 with h2 | h2
        · left; exact h2
        · rcases ih h2 with h3 | ⟨q2, hq2, hq3⟩
          · left; exact h3
          · right; exact ⟨q2, by simp [hq2], hq3⟩

/-- Characters of the split parts come from the original list. -/
theorem mem_splitOnP {α : Type} (p : α → Bool) :
    ∀ (l : List α), ∀ part ∈ l.splitOnP p, ∀ a ∈ part, a ∈ l := by
  intro l
  induction l with
  | nil =>
    intro part hpart a ha
    rw [List.splitOnP_nil] at hpart
    simp only [List.mem_singleton] at hpart
    subst hpart
    simp at ha
  | cons x xs ih =>
    intro part hpart a ha
    rw [List.splitOnP_cons] at hpart
    by_cases hp : p x
    · rw [if_pos hp] at hpart
      rcases List.mem_cons.mp hpart with h1 | h1
      · subst h1; simp at ha
      · exact List.mem_cons_of_mem x (ih part h1 a ha)
    · rw [if_neg hp] at hpart
      rcases hs : xs.splitOnP p with _ | ⟨h0, rest⟩
      · exact absurd hs (List.splitOnP_ne_nil p xs)
      · rw [hs] at hpart
        simp only [List.modifyHead] at hpart
        rcases List.mem_cons.mp hpart with h1 | h1
        · subst h1
          rcases List.mem_cons.mp ha with h2 | h2
          · subst h2; exact List.mem_cons_self a xs
          · refine List.mem_cons_of_mem x (ih h0 ?_ a h2)
            rw [hs]; exact List.mem_cons_self h0 rest
        · refine List.mem_cons_of_mem x (ih part ?_ a ha)
          rw [hs]; exact List.mem_cons_of_mem h0 h1

theorem mem_splitHyphen {l : List Char} {part : List Char} {a : Char}
    (hpart : part ∈ splitHyphen l) (ha : a ∈ part) : a ∈ l :=
  mem_splitOnP _ l part hpart a ha

theorem mem_replaceAllF {needle repl : List Char} {a : Char} :
    ∀ {fuel : Nat} {l : List Char},
      a ∈ replaceAllF needle repl fuel l → a ∈ repl ∨ a ∈ l := by
  intro fuel
  induction fuel with
  | zero =>
    intro l hm
    cases l with
    | nil => simp [replaceAllF] at hm
    | cons c rest => right; simpa [replaceAllF] using hm
  | succ fuel ih =>
    intro l hm
    cases l with
    | nil => simp [replaceAllF] at hm
    | cons c rest =>
      rw [replaceAllF] at hm
      split at hm
      · rcases List.mem_append.mp hm with h1 | h1
        · left; exact h1
        · rcases ih h1 with h2 | h2
          · left; exact h2
          · right
            have : (c :: rest).drop needle.length <:+ (c :: rest) :=
              List.drop_suffix _ _
            exact this.subset h2
      · rcases List.mem_cons.mp hm with h1 | h1
        · subst h1; right; exact List.mem_cons_self a rest
        · rcases ih h1 with h2 | h2
          · left; exact h2
          · right; exact List.mem_cons_of_mem c h2

theorem mem_replaceAll {needle repl : List Char} {a : Char} {l : List Char}
    (h : a ∈ replaceAll needle repl l) : a ∈ repl ∨ a ∈ l :=
  mem_replaceAllF h

theorem mem_combineOtNt {w : List Char} :
    ∀ {l : List (List Char)}, w ∈ combineOtNt l → w ∈ l := by
  intro l
  induction l using combineOtNt.induct with
  | case1 => intro h; simp [combineOtNt] at h
  | case2 x => intro h; simpa [combineOtNt] using h
  | case3 x y t h =>
    intro hm
    rw [combineOtNt, if_pos h] at hm
    rcases List.mem_cons.mp hm with h1 | h1
    · subst h1; simp
    · simp [h1]
  | case4 x y t h ih =>
    intro hm
    rw [combineOtNt, if_neg h] at hm
    rcases List.mem_cons.mp hm with h1 | h1
    · subst h1; simp
    · rcases List.mem_cons.mp (ih h1) with h2 | h2
      · subst h2; simp
      · simp [h2]

/-- All characters of a word list are slug characters. -/
def SlugWords (ws : List (List Char)) : Prop :=
  ∀ w ∈ ws, ∀ c ∈ w, isSlugChar c = true

theorem substWord_slug {w0 : List Char} (hw0 : ∀ c ∈ w0, isSlugChar c = true) :
    ∀ c ∈ substWord w0, isSlugChar c = true := by
  unfold substWord
  rcases hab : abbrevLookup w0 with _ | v
  · by_cases h1 : w0 = "old".data
    · simp only [h1, if_pos]; decide
    · by_cases h2 : w0 = "new".data
      · simp only [h1, if_false, h2, if_pos]; decide
      · simpa only [h1, h2, if_false] using hw0
  · exact abbrevLookup_slug hab

theorem procWord_slug {isBook interior : Bool} {plen : Nat}
    {acc : List (List Char) × List (List Char)} {w0 : List Char}
    (hacc : SlugWords acc.1) (hw0 : ∀ c ∈ w0, isSlugChar c = true) :
    SlugWords (procWord isBook interior plen acc w0).1 := by
  have hw : ∀ c ∈ substWord w0, isSlugChar c = true := substWord_slug hw0
  unfold procWord
  rcases acc with ⟨fw, seen⟩
  dsimp only
  split
  · split
    · exact hacc
    · intro w hwm c hc
      rcases List.mem_append.mp hwm with h1 | h1
      · exact hacc w h1 c hc
      · simp only [List.mem_singleton] at h1
        subst h1
        exact hw c hc
  · split
    · exact hacc
    · split
      · exact hacc
      · intro w hwm c hc
        rcases List.mem_append.mp hwm with h1 | h1
        · exact hacc w h1 c hc
        · simp only [List.mem_singleton] at h1
          subst h1
          exact hw c hc

theorem foldl_procWord_slug (isBook interior : Bool) (plen : Nat) :
    ∀ (ws : List (List Char)) (acc : List (List Char) × List (List Char)),
      SlugWords acc.1 → SlugWords ws →
      SlugWords (ws.foldl (procWord isBook interior plen) acc).1 := by
  intro ws
  induction ws with
  | nil => intro acc hacc _; simpa using hacc
  | cons w0 rest ih =>
    intro acc hacc hws
    rw [List.foldl_cons]
    refine ih _ (procWord_slug hacc (hws w0 (by simp))) ?_
    intro w hw c hc
    exact hws w (by simp [hw]) c hc

theorem testamentSubst_slug {segment : List Char}
    (hseg : ∀ c ∈ segment, isSlugChar c = true) :
    ∀ c ∈ testamentSubst segment, isSlugChar c = true := by
  intro c hc
  unfold testamentSubst at hc
  have hot : ∀ x ∈ "ot".data, isSlugChar x = true := by decide
  have hnt : ∀ x ∈ "nt".data, isSlugChar x = true := by decide
  split at hc
  · rcases mem_replaceAll hc with h1 | h1
    · exact hot c h1
    · exact hseg c h1
  · split at hc
    · rcases mem_replaceAll hc with h1 | h1
      · exact hnt c h1
      · exact hseg c h1
    · exact hseg c hc

theorem procSegmentWords_slug {n : Nat} {st : DForState} {i : Nat}
    {segment : List Char}
    (hseg : ∀ c ∈ segment, isSlugChar c = true)
    (hst : SlugWords st.processed) :
    SlugWords (procSegmentWords n st i segment).processed := by
  have hwords : SlugWords (splitHyphen (testamentSubst segment)) := by
    intro w hw c hc
    exact testamentSubst_slug hseg c (mem_splitHyphen hw hc)
  have hfold := foldl_procWord_slug
    (bookTitleKeywords.any (fun k => containsSub segment k))
    (decide (0 < i ∧ i < n - 1)) st.processed.length
    (splitHyphen (testamentSubst segment)) ([], st.seenWords)
    (by intro w hw; simp at hw) hwords
  unfold procSegmentWords
  dsimp only
  split
  · exact hst
  · intro w hw c hc
    rcases List.mem_append.mp hw with h1 | h1
    · exact hst w h1 c hc
    · simp only [List.mem_singleton] at h1
      subst h1
      have h2 := mem_trimBy hc
      have h3 := mem_collapseHyphens h2
      rcases mem_joinHyphen h3 with h4 | hq
      · subst h4; decide
      · rcases hq with ⟨q, hq1, hcq⟩
        exact hfold q (mem_combineOtNt hq1) c hcq

theorem procSegment_slug {n : Nat} {st : DForState} {i : Nat}
    {segment : List Char}
    (hseg : ∀ c ∈ segment, isSlugChar c = true)
    (hst : SlugWords st.processed) :
    SlugWords (procSegment n st i segment).processed := by
  unfold procSegment
  split
  · intro w hw c hc
    rcases List.mem_append.mp hw with h1 | h1
    · exact hst w h1 c hc
    · simp only [List.mem_singleton] at h1
      subst h1
      rcases List.mem_cons.mp hc with h2 | h2
      · subst h2; decide
      · rcases List.mem_cons.mp h2 with h3 | h3
        · subst h3; decide
        · exact hseg c h3
  · split
    · intro w hw c hc
      rcases List.mem_append.mp hw with h1 | h1
      · exact hst w h1 c hc
      · simp only [List.mem_singleton] at h1
        subst h1
        exact hseg c hc
    · split
      · rename_i ab hab
        intro w hw c hc
        rcases List.mem_append.mp hw with h1 | h1
        · exact hst w h1 c hc
        · simp only [List.mem_singleton] at h1
          subst h1
          exact abbrevLookup_slug hab c hc
      · exact procSegmentWords_slug hseg hst

theorem foldl_procSegment_slug (nn : Nat) :
    ∀ (l : List (Nat × List Char)) (st : DForState),
      SlugWords st.processed → (∀ ip ∈ l, ∀ c ∈ ip.2, isSlugChar c = true) →
      SlugWords (l.foldl (fun st ip => procSegment nn st ip.1 ip.2) st).processed := by
  intro l
  induction l with
  | nil => intro st hst _; simpa using hst
  | cons ip rest ih =>
    intro st hst hl
    rw [List.foldl_cons]
    refine ih _ (procSegment_slug (hl ip (by simp)) hst) ?_
    intro q hq c hc
    exact hl q (by simp [hq]) c hc

theorem dedupConsec_sublist :
    ∀ l : List (List Char), (dedupConsec l).Sublist l := by
  intro l
  induction l with
  | nil => simp [dedupConsec]
  | cons x t ih =>
    cases t with
    | nil => simp [dedupConsec]
    | cons y t2 =>
      have hd : dedupConsec (x :: y :: t2) =
          if x = y then dedupConsec (y :: t2) else x :: dedupConsec (y :: t2) := rfl
      rw [hd]
      by_cases h : x = y
      · rw [if_pos h]
        exact ih.cons x
      · rw [if_neg h]
        exact ih.cons₂ x

theorem pass2F_mem_aux (fuel : Nat) :
    ∀ (pr : List (List Char)) (bti : List Nat) (i : Nat) (w : List Char),
      w ∈ (pass2F fuel pr bti i).1 → w ∈ pr := by
  induction fuel with
  | zero =>
    intro pr bti i w hm
    simpa [pass2F] using hm
  | succ fuel ih =>
    intro pr bti i w hm
    rw [pass2F] at hm
    by_cases h : i + 1 < pr.length
    · rw [if_pos h] at hm
      dsimp only at hm
      split at hm
      · exact ih pr bti (i + 1) w hm
      · split at hm
        · exact (List.eraseIdx_sublist pr i).mem (ih _ _ i w hm)
        · split at hm
          · exact (List.eraseIdx_sublist pr (i + 1)).mem (ih _ _ i w hm)
          · exact ih pr bti (i + 1) w hm
    · rw [if_neg h] at hm
      exact hm

theorem pass2_mem {w : List Char} {pr : List (List Char)} {bti : List Nat}
    {i : Nat} (hm : w ∈ (pass2 pr bti i).1) : w ∈ pr :=
  pass2F_mem_aux (pr.length + 1) pr bti i w hm

theorem getD_mem_of_lt {l : List (List Char)} {j : Nat} (h : j < l.length) :
    l.getD j [] ∈ l := by
  rw [List.getD_eq_getElem?_getD, List.getElem?_eq_getElem h]
  exact List.getElem_mem h

theorem pass3F_slug_aux (fuel : Nat) :
    ∀ (pr : List (List Char)) (bti : List Nat) (i : Nat),
      SlugWords pr → SlugWords (pass3F fuel pr bti i).1 := by
  induction fuel with
  | zero =>
    intro pr bti i hpr
    simpa [pass3F] using hpr
  | succ fuel ih =>
    intro pr bti i hpr
    rw [pass3F]
    by_cases h : i + 1 < pr.length
    · rw [if_pos h]
      dsimp only
      split
      · exact ih pr bti (i + 1) hpr
      · split
        · split
          · refine ih _ bti (i + 1) ?_
            intro w hw c hc
            rcases List.mem_or_eq_of_mem_set hw with h1 | h1
            · exact hpr w h1 c hc
            · subst h1
              rcases mem_joinHyphen hc with h2 | hq
              · subst h2; decide
              · rcases hq with ⟨q, hq1, hcq⟩
                have hq2 : q ∈ splitHyphen (pr.getD (i + 1) []) := by
                  rcases hs : splitHyphen (pr.getD (i + 1) []) with _ | ⟨h0, rest⟩
                  · exact absurd hs (List.splitOnP_ne_nil _ _)
                  · rw [hs] at hq1
                    simp only [List.tail_cons] at hq1
                    exact List.mem_cons_of_mem h0 hq1
                have hchar := mem_splitHyphen hq2 hcq
                exact hpr _ (getD_mem_of_lt (by omega)) c hchar
          · refine ih _ _ i ?_
            intro w hw c hc
            exact hpr w ((List.eraseIdx_sublist pr (i + 1)).mem hw) c hc
        · exact ih pr bti (i + 1) hpr
    · rw [if_neg h]
      exact hpr

theorem bibleTail_slug {pr : List (List Char)} (hpr : SlugWords pr) :
    SlugWords (bibleTail pr) := by
  unfold bibleTail
  dsimp only
  split
  · split
    · split
      · rename_i hlen2 base heq _
        intro w hw c hc
        rcases List.mem_or_eq_of_mem_set hw with h1 | h1
        · exact hpr w h1 c hc
        · subst h1
          unfold chapterSuffixBase at heq
          dsimp only at heq
          split at heq
          · exact absurd heq (by simp)
          · split at heq
            · simp only [Option.some.injEq] at heq
              subst heq
              have h2 := (List.take_sublist _ _).mem hc
              have h3 := (List.take_sublist _ _).mem h2
              exact hpr _ (getD_mem_of_lt (by omega)) c h3
            · exact absurd heq (by simp)
      · exact hpr
    · exact hpr
  · exact hpr

theorem mem_abbrevParts {k : Nat} {parts : List (List Char)} {q : List Char}
    (h : q ∈ abbrevParts k parts) : ∃ p ∈ parts, q = p.take k ∨ q = p := by
  unfold abbrevParts at h
  rcases List.exists_of_mem_mapIdx h with ⟨i, hi, hq⟩
  refine ⟨parts[i], List.getElem_mem hi, ?_⟩
  by_cases hcond : i < parts.length - 2
  · left; rw [← hq, if_pos hcond]
  · right; rw [← hq, if_neg hcond]

theorem mem_compressStep4 {a : Char} {maxLen : Nat} :
    ∀ fl : List (List Char), a ∈ compressStep4 maxLen fl →
      a = '-' ∨ ∃ p ∈ fl, a ∈ p := by
  intro fl
  induction fl with
  | nil =>
    intro hm
    exact absurd hm (by simp [compressStep4, joinHyphen])
  | cons p rest ih =>
    intro hm
    rw [compressStep4] at hm
    split at hm
    · rcases ih hm with h1 | ⟨q, hq, haq⟩
      · left; exact h1
      · right; exact ⟨q, List.mem_cons_of_mem p hq, haq⟩
    · exact mem_joinHyphen hm

theorem mem_compressSlugParts {a : Char} {parts : List (List Char)}
    {maxLen : Nat} (h : a ∈ compressSlugParts parts maxLen) :
    a = '-' ∨ ∃ p ∈ parts, a ∈ p := by
  have hfil : ∀ q ∈ parts.filter (fun p => !p.isEmpty), q ∈ parts :=
    fun q hq => List.mem_of_mem_filter hq
  have habr : ∀ k q, q ∈ abbrevParts k (parts.filter (fun p => !p.isEmpty)) →
      ∀ c ∈ q, ∃ p ∈ parts, c ∈ p := by
    intro k q hq c hc
    rcases mem_abbrevParts hq with ⟨p, hp, hcase⟩
    rcases hcase with h1 | h1
    · rw [h1] at hc
      exact ⟨p, hfil p hp, (List.take_sublist _ _).mem hc⟩
    · rw [h1] at hc
      exact ⟨p, hfil p hp, hc⟩
  unfold compressSlugParts at h
  dsimp only at h
  split at h
  · simp at h
  · split at h
    · rcases mem_joinHyphen h with h1 | ⟨p, hp, hap⟩
      · left; exact h1
      · right; exact ⟨p, hfil p hp, hap⟩
    · split at h
      · split at h
        · rcases mem_joinHyphen h with h1 | ⟨p, hp, hap⟩
          · left; exact h1
          · right; exact habr 6 p hp a hap
        · split at h
          · rcases mem_joinHyphen h with h1 | ⟨p, hp, hap⟩
            · left; exact h1
            · right; exact habr 3 p hp a hap
          · rcases mem_compressStep4 _ h with h1 | ⟨p, hp, hap⟩
            · left; exact h1
            · right; exact habr 3 p hp a hap
      · rcases mem_compressStep4 _ h with h1 | ⟨p, hp, hap⟩
        · left; exact h1
        · right; exact ⟨p, hfil p hp, hap⟩

theorem dForStages_slug (norm : List (List Char)) (hnorm : SlugWords norm) :
    SlugWords (
      let st := norm.enum.foldl
        (fun st ip => procSegment norm.length st ip.1 ip.2)
        (DForState.mk [] [] [])
      let processed0 := if st.processed.isEmpty then norm else st.processed
      let p1 := dedupConsec processed0
      let pb2 := pass2 p1 st.bookIdx 0
      let pb3 := pass3 pb2.1 pb2.2 0
      let p4 := dedupConsec pb3.1
      let p5 := bibleTail p4
      let finalParts0 :=
        (p5.map (fun part => trimBy (fun c => c = '-') (collapseHyphens part))).filter
          (fun p => !p.isEmpty)
      if finalParts0.isEmpty then p5 else finalParts0) := by
  dsimp only
  set st0 := norm.enum.foldl
    (fun st ip => procSegment norm.length st ip.1 ip.2)
    (DForState.mk [] [] []) with hst0
  set processed0 := if st0.processed.isEmpty = true then norm else st0.processed
    with hpr0
  set p1 := dedupConsec processed0 with hp1
  set pb2 := pass2 p1 st0.bookIdx 0 with hpb2
  set pb3 := pass3 pb2.1 pb2.2 0 with hpb3
  set p4 := dedupConsec pb3.1 with hp4
  set p5 := bibleTail p4 with hp5
  have hst : SlugWords st0.processed := by
    rw [hst0]
    refine foldl_procSegment_slug _ _ _ (by intro w hw; simp at hw) ?_
    intro ip hip c hc
    have hmem : ip.2 ∈ norm := by
      rcases ip with ⟨j, w⟩
      have := (List.mk_mem_enum_iff_getElem? (l := norm)).mp hip
      exact List.getElem?_mem this
    exact hnorm _ hmem c hc
  have hp0 : SlugWords processed0 := by
    rw [hpr0]
    split
    · exact hnorm
    · exact hst
  have h1 : SlugWords p1 := by
    rw [hp1]
    exact fun w hw => hp0 w ((dedupConsec_sublist _).mem hw)
  have h2 : SlugWords pb2.1 := by
    rw [hpb2]
    exact fun w hw => h1 w (pass2_mem hw)
  have h3 : SlugWords pb3.1 := by
    rw [hpb3]
    exact pass3F_slug_aux (pb2.1.length + 1) pb2.1 pb2.2 0 h2
  have h4 : SlugWords p4 := by
    rw [hp4]
    exact fun w hw => h3 w ((dedupConsec_sublist _).mem hw)
  have h5 : SlugWords p5 := by
    rw [hp5]
    exact bibleTail_slug h4
  split
  · exact h5
  · intro w hw c hc
    have h6 := List.mem_of_mem_filter hw
    rcases List.mem_map.mp h6 with ⟨w0, hw0, hww⟩
    rw [← hww] at hc
    have h7 := mem_trimBy hc
    have h8 := mem_collapseHyphens h7
    exact h5 w0 hw0 c h8

theorem dForFinalParts_slug (parts : List (List Char)) :
    SlugWords (dForFinalParts parts) := by
  have hnorm : SlugWords (dForNorm parts) := by
    intro w hw c hc
    unfold dForNorm at hw
    have h1 := List.mem_of_mem_filter hw
    have h2 := List.mem_of_mem_filter h1
    rcases List.mem_map.mp h2 with ⟨w0, _, hw0⟩
    rw [← hw0] at hc
    exact slugifyStrict_slug w0 c hc
  unfold dForFinalParts
  dsimp only
  split
  · intro w hw; simp at hw
  · exact dForStages_slug (dForNorm parts) hnorm

/-- Every character of a derived identifier is in [a-z0-9-]. -/
theorem dForL_slug (parts : List (List Char)) :
    ∀ c ∈ dForL parts, isSlugChar c = true := by
  intro c hc
  unfold dForL at hc
  have h1 := mem_trimBy hc
  have h2 := mem_collapseHyphens h1
  rcases mem_compressSlugParts h2 with h3 | ⟨p, hp, hcp⟩
  · subst h3; decide
  · exact dForFinalParts_slug parts p hp c hcp

/-! ## Shape and length of derived identifiers -/

/-- Whenever _d_for returns a nonempty string it matches the d-tag regex. -/
theorem dForL_shape (parts : List (List Char)) :
    dForL parts = [] ∨ matchesDTag (dForL parts) = true := by
  by_cases hne : dForL parts = []
  · left; exact hne
  · right
    refine matchesDTag_of_shape (dForL parts).length (dForL parts) le_rfl hne
      (dForL_slug parts) ?_ ?_ ?_
    · unfold dForL
      exact trimBy_chain (collapseHyphens_chain _)
    · intro c hc habs
      unfold dForL at hc
      have := trimBy_head? hc
      rw [habs] at this
      simp at this
    · intro c hc habs
      unfold dForL at hc
      have := trimBy_getLast? hc
      rw [habs] at this
      simp at this

/-- The hyphen-join of the last two nonempty parts: the portion of a
compressed slug that compress_slug_parts never abbreviates or drops. -/
def lastTwoJoin (ps : List (List Char)) : List Char :=
  joinHyphen ((ps.filter (fun p => !p.isEmpty)).drop
    ((ps.filter (fun p => !p.isEmpty)).length - 2))

theorem compressStep4_cases (maxLen : Nat) :
    ∀ fl : List (List Char),
      (compressStep4 maxLen fl).length ≤ maxLen ∨
      compressStep4 maxLen fl = joinHyphen (fl.drop (fl.length - 2)) := by
  intro fl
  induction fl with
  | nil =>
    right
    rw [compressStep4]
    simp
  | cons p rest ih =>
    rw [compressStep4]
    split
    · rename_i h
      rcases ih with h1 | h1
      · left; exact h1
      · right
        rw [h1]
        have hlen : rest.length ≥ 2 := by
          have := h.2
          simp only [List.length_cons] at this
          omega
        have hidx : (p :: rest).length - 2 = (rest.length - 2) + 1 := by
          simp only [List.length_cons]
          omega
        rw [hidx, List.drop_succ_cons]
    · rename_i h
      rcases Decidable.not_and_iff_or_not.mp h with h1 | h1
      · left; omega
      · right
        have : (p :: rest).length - 2 = 0 := by omega
        rw [this, List.drop_zero]

theorem abbrevParts_drop (k : Nat) (l : List (List Char)) :
    (abbrevParts k l).drop (l.length - 2) = l.drop (l.length - 2) := by
  apply List.ext_getElem?
  intro i
  rw [List.getElem?_drop, List.getElem?_drop]
  unfold abbrevParts
  rw [List.getElem?_mapIdx]
  rcases hg : l[l.length - 2 + i]? with _ | v
  · rfl
  · have hidx : l.length - 2 + i < l.length := by
      by_contra hcon
      rw [List.getElem?_eq_none (by omega)] at hg
      simp at hg
    simp only [Option.map_some']
    rw [if_neg (by omega)]

theorem compressSlugParts_length (parts : List (List Char)) (maxLen : Nat) :
    (compressSlugParts parts maxLen).length ≤ maxLen ∨
    (compressSlugParts parts maxLen).length ≤ (lastTwoJoin parts).length := by
  unfold compressSlugParts lastTwoJoin
  dsimp only
  split
  · left; simp
  · split
    · left; assumption
    · split
      · split
        · left; assumption
        · split
          · left; assumption
          · rcases compressStep4_cases maxLen
              (abbrevParts 3 (parts.filter (fun p => !p.isEmpty))) with h1 | h1
            · left; exact h1
            · right
              rw [h1]
              have hlen3 : (abbrevParts 3 (parts.filter (fun p => !p.isEmpty))).length
                  = (parts.filter (fun p => !p.isEmpty)).length := by
                unfold abbrevParts; rw [List.length_mapIdx]
              rw [hlen3, abbrevParts_drop]
      · rcases compressStep4_cases maxLen (parts.filter (fun p => !p.isEmpty)) with h1 | h1
        · left; exact h1
        · right
          rw [h1]

/-- Length of the derived identifier: at most the 75-character ceiling, or
bounded by the join of the final two parts, which are never truncated. -/
theorem dForL_length (parts : List (List Char)) :
    (dForL parts).length ≤ 75 ∨
    (dForL parts).length ≤ (lastTwoJoin (dForFinalParts parts)).length := by
  have hle : (dForL parts).length ≤
      (compressSlugParts (dForFinalParts parts) 75).length := by
    unfold dForL
    exact le_trans (length_trimBy_le _ _) (length_collapseHyphens_le _)
  rcases compressSlugParts_length (dForFinalParts parts) 75 with h1 | h1
  · left; omega
  · right; omega

/-! ## Data model of the compiler (nkbip_bookstr.py) -/

/-- A draft record: numeric kind, ordered tag list, content string. -/
structure Event where
  kind : Nat
  tags : List (List String)
  content : String
  deriving Repr, DecidableEq

/-- One entry of the canonical-name lookup: either the new format with
canonical-long and canonical-short fields (missing fields are empty
strings), or the old single-string format. -/
inductive CanonInfo where
  | full (canonLong canonShort : String)
  | plain (s : String)
  deriving Repr, DecidableEq

/-- Publication metadata.  Optional fields are empty strings when absent,
matching the falsiness test (hasattr and truthiness) of the source. -/
structure Md where
  title : String := ""
  author : String := ""
  published_on : String := ""
  published_by : String := ""
  summary : String := ""
  source : String := ""
  image : String := ""
  derivative_author : String := ""
  derivative_event : String := ""
  derivative_relay : String := ""
  derivative_pubkey : String := ""
  type : String := ""
  auto_update : String := ""
  version : String := ""
  additional_tags : List (List String) := []
  deriving Repr, DecidableEq

/-- A truthy metadata string field: some value when the metadata object is
present and the field is a nonempty string. -/
def mdStr (md : Option Md) (f : Md → String) : Option String :=
  match md with
  | some m => if f m ≠ "" then some (f m) else none
  | none => none

/-- One leaf of the heading-tree parser (parse_collection.SectionEntry). -/
structure SectionEntry where
  path_titles : List String
  path_levels : List Nat
  content : String
  deriving Repr, DecidableEq

/-- parse_collection.CollectionTree. -/
structure CollectionTree where
  sections : List SectionEntry
  section_level : Nat
  deriving Repr, DecidableEq

/-- Association lists standing in for Python dictionaries: an update conses
in front and lookup takes the first match, so the latest write wins. -/
def aLookup {β : Type} (m : List (String × β)) (k : String) : Option β :=
  (m.find? (fun p => p.1 = k)).map (fun p => p.2)

def aSet {β : Type} (m : List (String × β)) (k : String) (v : β) :
    List (String × β) :=
  (k, v) :: m

def aGetD {β : Type} (m : List (String × β)) (k : String) (d : β) : β :=
  (aLookup m k).getD d

def aMem {β : Type} (m : List (String × β)) (k : String) : Bool :=
  (aLookup m k).isSome

def aAppend {β : Type} (m : List (String × List β)) (k : String) (x : β) :
    List (String × List β) :=
  aSet m k (aGetD m k [] ++ [x])

/-- Python str.lower restricted to ASCII. -/
def strLower (s : String) : String :=
  String.mk (s.data.map Char.toLower)

/-- Lookup in the canonical-name map by lowercased title. -/
def btmGet (m : List (String × CanonInfo)) (k : String) : Option CanonInfo :=
  (m.find? (fun p => p.1 = k)).map (fun p => p.2)

/-! ## nkbip_bookstr.normalize_nkbip08_tag_value -/

/-- The character scan of normalize_nkbip08_tag_value: alphanumerics are
lowercased and kept, anything else becomes a hyphen unless one was just
written or nothing was written yet.  (The Python isalnum test is unicode
aware; here it is the ASCII test, which agrees on all ASCII input.) -/
def buildNorm (acc : List Char) : List Char → List Char
  | [] => acc
  | c :: rest =>
    if c.isAlphanum then buildNorm (acc ++ [c.toLower]) rest
    else if ¬acc.isEmpty ∧ acc.getLast? ≠ some '-' then
      buildNorm (acc ++ ['-']) rest
    else buildNorm acc rest

def normalizeNkbip08L (l : List Char) : List Char :=
  if l.isEmpty then [] else
  let t := trimBy (fun c => c = '"' || c = '\'') (trimBy Char.isWhitespace l)
  trimBy (fun c => c = '-') (collapseHyphens (buildNorm [] t))

def normalizeNkbip08 (s : String) : String :=
  String.mk (normalizeNkbip08L s.data)

/-! ## nkbip_bookstr regular-expression helpers -/

/-- Case-insensitive containment of the literal word "chapter". -/
def containsChapter (s : String) : Bool :=
  containsSub (s.data.map Char.toLower) "chapter".data

/-- One attempt of re.search for "chapter\s+([0-9]+)" at the start of l,
case-insensitively: the literal word, one or more whitespace characters,
then the maximal digit run as the captured group. -/
def tryChapterAt (l : List Char) : Option (List Char) :=
  if (l.take 7).map Char.toLower = "chapter".data then
    let rest := l.drop 7
    let sp := rest.takeWhile Char.isWhitespace
    if sp.isEmpty then none
    else
      let ds := (rest.drop sp.length).takeWhile isDigitChar
      if ds.isEmpty then none else some ds
  else none

/-- Leftmost match of the chapter-number search of the source. -/
def searchChapterNumL : List Char → Option (List Char)
  | [] => none
  | c :: rest =>
    match tryChapterAt (c :: rest) with
    | some ds => some ds
    | none => searchChapterNumL rest

def searchChapterNum (s : String) : Option String :=
  (searchChapterNumL s.data).map String.mk

/-- re.match of the anchored verse pattern ([0-9]+):([0-9]+) on the
stripped title; returns the second group (the verse number). -/
def verseNumMatch (s : String) : Option String :=
  let t := trimBy Char.isWhitespace s.data
  let d1 := t.takeWhile isDigitChar
  if d1.isEmpty then none
  else
    match t.drop d1.length with
    | ':' :: r2 =>
      let d2 := r2.takeWhile isDigitChar
      if ¬d2.isEmpty ∧ d2.length = r2.length then some (String.mk d2) else none
    | _ => none

/-! ## nkbip_bookstr._add_book_t_tags -/

/-- Append the display, canonical-long and canonical-short T tags for a
book title, deduplicated as in the source. -/
def addBookTTags (tags : List (List String)) (bookTitle : String)
    (btm : Option (List (String × CanonInfo))) : List (List String) :=
  if bookTitle = "" then tags else
  let canonInfo : Option CanonInfo :=
    match btm with
    | some m => btmGet m (strLower bookTitle)
    | none => none
  let displayTag := normalizeNkbip08 bookTitle
  let tags1 := if displayTag ≠ "" then tags ++ [["T", displayTag]] else tags
  match canonInfo with
  | some (CanonInfo.full canonLong canonShort) =>
    let canonLongTag : Option String :=
      if canonLong ≠ "" then some (normalizeNkbip08 canonLong) else none
    let tags2 :=
      match canonLongTag with
      | some clt =>
        if clt ≠ "" ∧ clt ≠ displayTag then tags1 ++ [["T", clt]] else tags1
      | none => tags1
    if canonShort ≠ "" ∧ canonShort ≠ canonLong then
      let cst := normalizeNkbip08 canonShort
      if cst ≠ "" ∧ cst ≠ displayTag ∧
          (match canonLongTag with
           | none => true
           | some clt => cst ≠ clt : Bool) = true then
        tags2 ++ [["T", cst]]
      else tags2
    else tags2
  | some (CanonInfo.plain cs) =>
    let canonTag := normalizeNkbip08 cs
    if canonTag ≠ "" ∧ canonTag ≠ displayTag then tags1 ++ [["T", canonTag]]
    else tags1
  | none => tags1

/-! ## serialize_bookstr, emission phase -/

/-- The inputs of serialize_bookstr other than the tree. -/
structure Ctx where
  collectionId : String
  language : String
  useBookstr : Bool
  btm : Option (List (String × CanonInfo))
  md : Option Md
  deriving Repr

/-- The mutable bindings of serialize_bookstr during the emission loop. -/
structure CompileState where
  events : List Event
  emitted : List String
  emittedVerse : List String
  dToParent : List (String × String)
  parentSectionCount : List (String × Nat)
  dToType : List (String × String)
  deriving Repr

def initialCompileState : CompileState :=
  CompileState.mk [] [] [] [] [] []

/-- The additional_tags list of the metadata, empty when absent. -/
def mdAddl (md : Option Md) : List (List String) :=
  match md with
  | some m => m.additional_tags
  | none => []

/-- Append one two-element tag when the optional value is present (the
source pattern of appending [key, value] under a truthiness guard on a
metadata field). -/
def appendIfSome (tags : List (List String)) (v : Option String)
    (key : String) : List (List String) :=
  match v with
  | some x => tags ++ [[key, x]]
  | none => tags

/-- Append one two-element tag when the value is a nonempty string. -/
def appendNE (tags : List (List String)) (key v : String) :
    List (List String) :=
  if v ≠ "" then tags ++ [[key, v]] else tags

/-- Collection root: replace the title tag by the metadata title and trim
every tag to two elements, when a metadata title is present. -/
def titleStage (ctx : Ctx) (tags : List (List String)) :
    List (List String) :=
  match mdStr ctx.md (fun m => m.title) with
  | some ti =>
    tags.map (fun t => if t.getD 0 "" ≠ "title" then t.take 2 else ["title", ti])
  | none => tags

/-- Collection root: the derivative p and E tags. -/
def derivStage (ctx : Ctx) (tags : List (List String)) :
    List (List String) :=
  match mdStr ctx.md (fun m => m.derivative_author) with
  | some da =>
    let t8a := tags ++ [["p", da]]
    match mdStr ctx.md (fun m => m.derivative_event) with
    | some de =>
      let relayUrl := (mdStr ctx.md (fun m => m.derivative_relay)).getD ""
      let pubkey :=
        match mdStr ctx.md (fun m => m.derivative_pubkey) with
        | some dp => dp
        | none => da
      t8a ++ [["E", de, relayUrl, pubkey]]
    | none => t8a
  | none => tags

/-- The whole metadata block of the collection root: title replacement,
the author through image appends, the derivative tags, and the
additional_tags appended verbatim (empty tags filtered out). -/
def rootMdTags (ctx : Ctx) (tags0 : List (List String)) :
    List (List String) :=
  derivStage ctx
    (appendIfSome
      (appendIfSome
        (appendIfSome
          (appendIfSome
            (appendIfSome
              (appendIfSome (titleStage ctx tags0)
                (mdStr ctx.md (fun m => m.author)) "author")
              (mdStr ctx.md (fun m => m.published_on)) "published_on")
            (mdStr ctx.md (fun m => m.published_by)) "published_by")
          (mdStr ctx.md (fun m => m.summary)) "summary")
        (mdStr ctx.md (fun m => m.source)) "source")
      (mdStr ctx.md (fun m => m.image)) "image")
  ++ (mdAddl ctx.md).filter (fun t => !t.isEmpty)

/-- The type tag, defaulting to book. -/
def typeTags (ctx : Ctx) (tags : List (List String)) : List (List String) :=
  tags ++ [["type", (mdStr ctx.md (fun m => m.type)).getD "book"]]

/-- The auto-update tag, defaulting to ask. -/
def autoUpdateTags (ctx : Ctx) (tags : List (List String)) :
    List (List String) :=
  tags ++ [["auto-update", (mdStr ctx.md (fun m => m.auto_update)).getD "ask"]]

/-- The image and summary tags when metadata is present. -/
def imageSummaryTags (ctx : Ctx) (tags : List (List String)) :
    List (List String) :=
  if ctx.md.isSome then
    appendIfSome (appendIfSome tags (mdStr ctx.md (fun m => m.image)) "image")
      (mdStr ctx.md (fun m => m.summary)) "summary"
  else tags

/-- The normalized collection C tag. -/
def collectionCTag (ctx : Ctx) (tags : List (List String)) :
    List (List String) :=
  if ctx.collectionId ≠ "" then
    appendNE tags "C" (normalizeNkbip08 ctx.collectionId)
  else tags

/-- The T tags of a collection root or book index. -/
def tTagStage (ctx : Ctx) (isCollectionRoot isBook : Bool)
    (maybeBookTitle : Option String) (tags : List (List String)) :
    List (List String) :=
  if isCollectionRoot ∨ isBook then
    if isCollectionRoot ∧ (mdStr ctx.md (fun m => m.title)).isSome then
      appendNE tags "T" (normalizeNkbip08 ((mdStr ctx.md (fun m => m.title)).getD ""))
    else if isBook ∧ (maybeBookTitle.getD "") ≠ "" then
      addBookTTags tags (maybeBookTitle.getD "") ctx.btm
    else tags
  else tags

/-- The T and c tags of a chapter index. -/
def chapterStage (ctx : Ctx) (isChapter : Bool) (dPath : List String)
    (title : String) (maybeBookTitle : Option String)
    (tags : List (List String)) : List (List String) :=
  if isChapter then
    let ta :=
      if dPath.length > 0 then
        let bookTitleForT :=
          if (maybeBookTitle.getD "") ≠ "" then maybeBookTitle.getD ""
          else if dPath.length > 1 then dPath.getD (dPath.length - 2) ""
          else ""
        if bookTitleForT ≠ "" then addBookTTags tags bookTitleForT ctx.btm
        else tags
      else tags
    let cv :=
      match searchChapterNum title with
      | some num => normalizeNkbip08 num
      | none => normalizeNkbip08 title
    appendNE ta "c" cv
  else tags

/-- The normalized version v tag. -/
def versionStage (ctx : Ctx) (tags : List (List String)) :
    List (List String) :=
  match mdStr ctx.md (fun m => m.version) with
  | some v => appendNE tags "v" (normalizeNkbip08 v)
  | none => tags

/-- nkbip_bookstr.serialize_bookstr.emit_index: emit one kind-30040 index
record for a path prefix unless its d-tag was already emitted, with the
full tag construction of the source. -/
def emitIndex (ctx : Ctx) (cs : CompileState) (dPath : List String)
    (title : String) (maybeBookTitle : Option String)
    (isCollectionRoot isBook isChapter : Bool) : CompileState :=
  let d := dFor (ctx.collectionId :: dPath)
  if cs.emitted.contains d then cs else
  let emitted := cs.emitted ++ [d]
  let tags0 : List (List String) :=
    [["d", d], ["title", title], ["L", ctx.language], ["m", "text/asciidoc"]]
  let dToParent :=
    if dPath.length > 1 then
      aSet cs.dToParent d (dFor (ctx.collectionId :: dPath.dropLast))
    else cs.dToParent
  let tags1 :=
    if isCollectionRoot ∧ ctx.md.isSome then rootMdTags ctx tags0 else tags0
  let tags8 :=
    versionStage ctx
      (chapterStage ctx isChapter dPath title maybeBookTitle
        (tTagStage ctx isCollectionRoot isBook maybeBookTitle
          (collectionCTag ctx
            (imageSummaryTags ctx
              (autoUpdateTags ctx (typeTags ctx tags1))))))
  let dToType :=
    if isBook then aSet cs.dToType d "book"
    else if isChapter then aSet cs.dToType d "chapter"
    else if isCollectionRoot then aSet cs.dToType d "collection"
    else cs.dToType
  { events := cs.events ++ [Event.mk 30040 tags8 ""],
    emitted := emitted,
    emittedVerse := cs.emittedVerse,
    dToParent := dToParent,
    parentSectionCount := cs.parentSectionCount,
    dToType := dToType }

/-- The ancestor-emission loop shared by both content branches: one index
record per proper path prefix, the first one flagged as collection root. -/
def emitAncestorLoop (ctx : Ctx) (titles : List String) (cs : CompileState)
    (n : Nat) : CompileState :=
  (List.range n).foldl
    (fun cs i =>
      emitIndex ctx cs (titles.take (i + 1)) (titles.getD i "") none
        (i = 0) false false)
    cs

/-- The backward scan for the nearest ancestor whose title contains the
word "chapter", starting at index i and walking down to 0. -/
def chapterScan (titles : List String) : Nat → Option Nat
  | 0 => if containsChapter (titles.getD 0 "") then some 0 else none
  | i + 1 =>
    if containsChapter (titles.getD (i + 1) "")
    then some (i + 1)
    else chapterScan titles i

/-- The chapter index of a leaf: nearest chapter-titled ancestor, with the
immediate parent as the fallback. -/
def chapterIdxOf (titles : List String) (leafIdx : Nat) : Nat :=
  match (if leafIdx = 0 then none else chapterScan titles (leafIdx - 1)) with
  | some i => i
  | none => leafIdx - 1

/-- First title of the path that has an entry in the canonical-name map
(by lowercased key); used to pick the book title of a section record. -/
def findBookTitleInPath (btm : Option (List (String × CanonInfo))) :
    List String → Option String
  | [] => none
  | t :: rest =>
    match btm with
    | some m =>
      if (btmGet m (strLower t)).isSome then some t
      else findBookTitleInPath btm rest
    | none => none

/-- First title among the ancestors that contains the word "chapter"
(the loop over titles[0 : n-1] of the section branch). -/
def findChapterTitle : List String → Option String
  | [] => none
  | t :: rest =>
    if containsChapter t then some t else findChapterTitle rest

/-- The tag list of a kind-30041 verse record. -/
def verseTags (ctx : Ctx) (titles : List String) (bookIdx chapterIdx : Nat)
    (verseD verseTitle : String) : List (List String) :=
  let sTags0 : List (List String) :=
    [["d", verseD], ["title", verseTitle], ["L", ctx.language],
     ["m", "text/asciidoc"]]
  let sTags1 := typeTags ctx sTags0
  let sTags2 := imageSummaryTags ctx sTags1
  let sTags3 := collectionCTag ctx sTags2
  let sTags4 :=
    if bookIdx < titles.length then
      addBookTTags sTags3 (titles.getD bookIdx "") ctx.btm
    else sTags3
  let sTags5 :=
    if chapterIdx < titles.length then
      let chapterTitle := titles.getD chapterIdx ""
      appendNE sTags4 "c"
        (match searchChapterNum chapterTitle with
         | some num => normalizeNkbip08 num
         | none => normalizeNkbip08 chapterTitle)
    else sTags4
  let sv :=
    match verseNumMatch verseTitle with
    | some num => normalizeNkbip08 num
    | none => normalizeNkbip08 verseTitle
  let sTags6 := appendNE sTags5 "s" sv
  versionStage ctx sTags6

/-- The tag list of a kind-30041 section record. -/
def sectionTags (ctx : Ctx) (titles : List String)
    (verseD verseTitle : String) : List (List String) :=
  let sTags0 : List (List String) :=
    [["d", verseD], ["title", verseTitle], ["L", ctx.language],
     ["m", "text/asciidoc"]]
  let sTags1 := typeTags ctx sTags0
  let sTags2 := collectionCTag ctx sTags1
  let sTags3 :=
    if titles.length > 0 then
      let bookTitleForTag :=
        match findBookTitleInPath ctx.btm titles with
        | some t => t
        | none => titles.getD 0 ""
      if bookTitleForTag ≠ "" then addBookTTags sTags2 bookTitleForTag ctx.btm
      else sTags2
    else sTags2
  let sTags4 :=
    if titles.length > 1 then
      match findChapterTitle (titles.take (titles.length - 1)) with
      | some chapterTitle =>
        appendNE sTags3 "c"
          (match searchChapterNum chapterTitle with
           | some num => normalizeNkbip08 num
           | none => normalizeNkbip08 chapterTitle)
      | none => sTags3
    else sTags3
  let sv := normalizeNkbip08 verseTitle
  let sTags5 := appendNE sTags4 "s" sv
  versionStage ctx sTags5

/-- The standard book/chapter/verse branch of the emission loop:
emit ancestor indexes, then one kind-30041 verse record, deduplicating
verse d-tags. -/
def processVerseEntry (ctx : Ctx) (cs : CompileState) (entry : SectionEntry) :
    CompileState :=
  let titles := entry.path_titles
  let leafIdx := titles.length - 1
  let chapterIdx := chapterIdxOf titles leafIdx
  let bookIdx := chapterIdx - 1
  let cs1 := emitAncestorLoop ctx titles cs bookIdx
  let cs2 :=
    if bookIdx < titles.length then
      emitIndex ctx cs1 (titles.take (bookIdx + 1)) (titles.getD bookIdx "")
        (some (titles.getD bookIdx "")) false true false
    else cs1
  let cs3 :=
    if chapterIdx < titles.length then
      emitIndex ctx cs2 (titles.take (chapterIdx + 1))
        (titles.getD chapterIdx "")
        (if bookIdx < titles.length then some (titles.getD bookIdx "") else none)
        false false true
    else cs2
  let verseD := dFor (ctx.collectionId :: titles)
  if cs3.emittedVerse.contains verseD then cs3 else
  let verseTitle := titles.getD (titles.length - 1) ""
  let dToParent :=
    if chapterIdx < titles.length then
      aSet cs3.dToParent verseD
        (dFor (ctx.collectionId :: titles.take (chapterIdx + 1)))
    else cs3.dToParent
  let sTags7 := verseTags ctx titles bookIdx chapterIdx verseD verseTitle
  { events := cs3.events ++ [Event.mk 30041 sTags7 entry.content],
    emitted := cs3.emitted,
    emittedVerse := cs3.emittedVerse ++ [verseD],
    dToParent := dToParent,
    parentSectionCount := cs3.parentSectionCount,
    dToType := cs3.dToType }

/-- The section-content branch of the emission loop, for content at a
level other than the verse level: emit ancestor indexes and one
kind-30041 record with a parent-derived -section-N identifier. -/
def processSectionEntry (ctx : Ctx) (cs : CompileState) (entry : SectionEntry) :
    CompileState :=
  let titles := entry.path_titles
  let cs1 :=
    if titles.length > 1 then
      emitAncestorLoop ctx titles cs (titles.length - 1)
    else if titles.length = 1 then
      emitIndex ctx cs (titles.take 1) (titles.getD 0 "") none true false false
    else cs
  let parentDTag : Option String :=
    if titles.length > 1 then some (dFor (ctx.collectionId :: titles.dropLast))
    else if titles.length = 1 then
      some (dFor [ctx.collectionId, titles.getD 0 ""])
    else none
  let parentTruthy := (parentDTag.getD "") ≠ ""
  let key := if parentTruthy then parentDTag.getD "" else ctx.collectionId
  let newCount := aGetD cs1.parentSectionCount key 0 + 1
  let parentSectionCount := aSet cs1.parentSectionCount key newCount
  let verseD :=
    (if parentTruthy then parentDTag.getD "" else ctx.collectionId) ++
      "-section-" ++ toString newCount
  if cs1.emittedVerse.contains verseD then
    { cs1 with parentSectionCount := parentSectionCount }
  else
  let verseTitle :=
    if titles.length > 0 then titles.getD (titles.length - 1) "" else "Section"
  let sTags6 := sectionTags ctx titles verseD verseTitle
  let dToParent :=
    if parentTruthy then aSet cs1.dToParent verseD (parentDTag.getD "")
    else cs1.dToParent
  { events := cs1.events ++ [Event.mk 30041 sTags6 entry.content],
    emitted := cs1.emitted,
    emittedVerse := cs1.emittedVerse ++ [verseD],
    dToParent := dToParent,
    parentSectionCount := parentSectionCount,
    dToType := cs1.dToType }

/-- One entry of the emission loop: content away from the verse level goes
to the section branch, content at the verse level to the verse branch. -/
def processEntry (ctx : Ctx) (verseLevel : Nat) (cs : CompileState)
    (entry : SectionEntry) : CompileState :=
  let titles := entry.path_titles
  let leafIdx := titles.length - 1
  let currentLevel := entry.path_levels.getD leafIdx verseLevel
  if currentLevel ≠ verseLevel then processSectionEntry ctx cs entry
  else processVerseEntry ctx cs entry

/-- The full emission phase of serialize_bookstr: fold the loop body over
the parsed sections. -/
def compileEmission (ctx : Ctx) (tree : CollectionTree) : CompileState :=
  tree.sections.foldl (processEntry ctx tree.section_level) initialCompileState

/-! ## serialize_bookstr, linking phase (parent map and _parent_d tags) -/

/-- The last value of a tag with the given discriminator, scanning the
whole tag list without break: later tags overwrite earlier ones, and a
discriminator-only tag resets the value to none, as in the source loops
over event.tags. -/
def extractLastTag (key : String) (tags : List (List String)) : Option String :=
  tags.foldl
    (fun acc t =>
      if ¬t.isEmpty ∧ t.getD 0 "" = key then
        if t.length > 1 then some (t.getD 1 "") else none
      else acc)
    none

/-- The value of the first tag with the given discriminator (the loops of
the source that break at the first match). -/
def firstTagVal (key : String) : List (List String) → Option String
  | [] => none
  | t :: rest =>
    if ¬t.isEmpty ∧ t.getD 0 "" = key then
      if t.length > 1 then some (t.getD 1 "") else none
    else firstTagVal key rest

/-- State of the child-map building loop. -/
structure LinkState where
  events : List Event
  parentChildren : List (String × List (Nat × String))
  deriving Repr

/-- One event of the child-map building loop: record the event under its
_parent_d tag if it has one, then under its recorded parent from the
d-tag-to-parent map, appending the temporary _parent_d tag in that case. -/
def phaseBStep (dToParent : List (String × String))
    (st : LinkState) (e : Event) : LinkState :=
  let dTag := extractLastTag "d" e.tags
  let parentD := extractLastTag "_parent_d" e.tags
  let pc1 :=
    if (dTag.getD "") ≠ "" ∧ (parentD.getD "") ≠ "" then
      aAppend st.parentChildren (parentD.getD "") (e.kind, dTag.getD "")
    else st.parentChildren
  if (dTag.getD "") ≠ "" ∧ (aLookup dToParent (dTag.getD "")).isSome then
    let p := (aLookup dToParent (dTag.getD "")).getD ""
    { events := st.events ++ [{ e with tags := e.tags ++ [["_parent_d", p]] }],
      parentChildren := aAppend pc1 p (e.kind, dTag.getD "") }
  else
    { events := st.events ++ [e], parentChildren := pc1 }

def phaseB (dToParent : List (String × String)) (events : List Event) :
    LinkState :=
  events.foldl (phaseBStep dToParent) (LinkState.mk [] [])

/-! ## serialize_bookstr, Preamble synthesis phase -/

/-- State of the Preamble synthesis loop. -/
structure SynthState where
  events : List Event
  dToParent : List (String × String)
  dToType : List (String × String)
  parentChildren : List (String × List (Nat × String))
  bookPreamble : List (String × String)
  deriving Repr

/-- Build the synthetic Preamble chapter record for a book. -/
def mkPreambleEvent (ctx : Ctx) (preambleD : String)
    (bookTTag : Option String) : Event :=
  let preamblePubType := (mdStr ctx.md (fun m => m.type)).getD "book"
  let tags0 : List (List String) :=
    [["d", preambleD], ["title", "Preamble"], ["L", ctx.language],
     ["m", "text/asciidoc"], ["type", preamblePubType], ["auto-update", "ask"]]
  let tags1 := collectionCTag ctx tags0
  let tags2 := appendNE tags1 "T" (bookTTag.getD "")
  let tags3 := tags2 ++ [["c", "preamble"]]
  let tags4 := versionStage ctx tags3
  Event.mk 30040 tags4 ""

/-- Replace the first _parent_d tag, or append one if none is present. -/
def updateParentTag (preambleD : String) (tags : List (List String)) :
    List (List String) :=
  match tags.findIdx? (fun t => !t.isEmpty && t.getD 0 "" == "_parent_d") with
  | some i => tags.set i ["_parent_d", preambleD]
  | none => tags ++ [["_parent_d", preambleD]]

/-- Move one direct content child of a book under its Preamble: find the
first event whose first d tag is the child, rewrite its _parent_d tag,
update the parent map and the adjacency map. -/
def reparentChild (_ctx : Ctx) (dBook preambleD : String) (ck : Nat)
    (cd : String) (st : SynthState) : SynthState :=
  match st.events.findIdx? (fun e => firstTagVal "d" e.tags == some cd) with
  | some j =>
    let e := st.events.getD j (Event.mk 0 [] "")
    let e2 := { e with tags := updateParentTag preambleD e.tags }
    let m1 :=
      if aMem st.parentChildren dBook then
        aSet st.parentChildren dBook
          ((aGetD st.parentChildren dBook []).filter
            (fun p => ¬(p.1 = ck ∧ p.2 = cd)))
      else st.parentChildren
    { st with
      events := st.events.set j e2,
      dToParent := aSet st.dToParent cd preambleD,
      parentChildren := aAppend m1 preambleD (ck, cd) }
  | none => st

/-- One iteration of the Preamble synthesis loop at index i: a kind-30040
event recorded as a book with direct kind-30041 children gets a Preamble
chapter; the content children are re-parented under it. -/
def synthStepAt (ctx : Ctx) (st : SynthState) (i : Nat) : SynthState :=
  let e := st.events.getD i (Event.mk 0 [] "")
  if e.kind = 30040 then
    let dTag := firstTagVal "d" e.tags
    if (dTag.getD "") ≠ "" ∧ aMem st.parentChildren (dTag.getD "") then
      let d := dTag.getD ""
      let eventType := aGetD st.dToType d "unknown"
      if eventType = "book" then
        let direct := (aGetD st.parentChildren d []).filter
          (fun p => p.1 == 30041)
        if ¬direct.isEmpty then
          let preambleD := d ++ "-preamble"
          let bookTTag := firstTagVal "T" e.tags
          let pe := mkPreambleEvent ctx preambleD bookTTag
          let st1 : SynthState :=
            { st with
              bookPreamble := aSet st.bookPreamble d preambleD,
              dToParent := aSet st.dToParent preambleD d,
              dToType := aSet st.dToType preambleD "chapter",
              events := st.events ++ [pe] }
          direct.foldl (fun st p => reparentChild ctx d preambleD p.1 p.2 st)
            st1
        else st
      else st
    else st
  else st

/-- The synthesis loop: iterate over the growing event list by index, as
the Python for statement does over a list that is appended to during
iteration.  Fuel bounds the iteration count; phaseC supplies twice the
event count plus one, which suffices because every appended Preamble is
recorded with type chapter and therefore never appends again. -/
def synthLoop (ctx : Ctx) : Nat → Nat → SynthState → SynthState
  | 0, _, st => st
  | fuel + 1, i, st =>
    if i < st.events.length then
      synthLoop ctx fuel (i + 1) (synthStepAt ctx st i)
    else st

def phaseC (ctx : Ctx) (st : SynthState) : SynthState :=
  synthLoop ctx (2 * st.events.length + 1) 0 st

/-! ## serialize_bookstr, address-tag phase -/

def placeholderPubkey : String :=
  "0000000000000000000000000000000000000000000000000000000000000000"

/-- The address tag for one recorded child: kind, placeholder pubkey and
child identifier, with two empty trailing fields. -/
def aTagOf (p : Nat × String) : List String :=
  ["a", toString p.1 ++ ":" ++ placeholderPubkey ++ ":" ++ p.2, "", ""]

/-- Add address tags to one kind-30040 event: one a tag per recorded
child, skipping content children of book-typed events, then the Preamble
a tag when the book has one. -/
def addATags (st : SynthState) (e : Event) : Event :=
  if e.kind = 30040 then
    let dTag := firstTagVal "d" e.tags
    let tags1 :=
      if (dTag.getD "") ≠ "" ∧ aMem st.parentChildren (dTag.getD "") then
        let d := dTag.getD ""
        let eventType := aGetD st.dToType d "unknown"
        (aGetD st.parentChildren d []).foldl
          (fun tags p =>
            if eventType = "book" ∧ p.1 = 30041 then tags
            else tags ++ [aTagOf p])
          e.tags
      else e.tags
    let hasPre : Option String :=
      match dTag with
      | some d => aLookup st.bookPreamble d
      | none => none
    let tags2 :=
      match hasPre with
      | some preambleD =>
        tags1 ++
          [["a", "30040:" ++ placeholderPubkey ++ ":" ++ preambleD, "", ""]]
      | none => tags1
    { e with tags := tags2 }
  else e

def phaseD (st : SynthState) : List Event :=
  st.events.map (addATags st)

/-! ## serialize_bookstr, composed -/

/-- The emission phase followed by the child-map building phase. -/
def serializeLinked (ctx : Ctx) (tree : CollectionTree) :
    CompileState × LinkState :=
  let cs := compileEmission ctx tree
  (cs, phaseB cs.dToParent cs.events)

/-- The state after Preamble synthesis. -/
def serializeSynth (ctx : Ctx) (tree : CollectionTree) : SynthState :=
  let cl := serializeLinked ctx tree
  phaseC ctx
    (SynthState.mk cl.2.events cl.1.dToParent cl.1.dToType
      cl.2.parentChildren [])

/-- nkbip_bookstr.serialize_bookstr: the full compiler pipeline. -/
def serializeBookstr (ctx : Ctx) (tree : CollectionTree) : List Event :=
  phaseD (serializeSynth ctx tree)

/-! ## Claim C1: shape and length of derived identifiers -/

def c1LongA : String := String.mk (List.replicate 40 'a')
def c1LongB : String := String.mk (List.replicate 40 'b')

def c1Ctx : Ctx := Ctx.mk "cc" "en" true none none

def c1Tree : CollectionTree :=
  CollectionTree.mk [SectionEntry.mk [c1LongA, c1LongB] [3, 4] "v"] 4

/-- C1 counterexample: a compiler run on a two-level path of 40-character
titles emits a content record whose derived identifier is 81 characters
long: compress_slug_parts never truncates the final two segments, so the
75-character ceiling of the claim is exceeded (the identifier still
matches the regex). -/
def c1BadD : String := c1LongA ++ "-" ++ c1LongB

set_option maxRecDepth 100000 in
theorem c1_counterexample :
    (∃ e ∈ serializeBookstr c1Ctx c1Tree,
      firstTagVal "d" e.tags = some c1BadD) ∧
    matchesDTag c1BadD.data = true ∧ 75 < c1BadD.length := by
  refine ⟨?_, by decide, by decide⟩
  decide

/-- C1 as amended: every identifier built by the d-tag derivation is either
empty or matches the regex of lowercase alphanumeric groups joined by
single hyphens, and its length is at most 75 except that the join of the
final two processed segments is never truncated, so the length is bounded
by that join when the ceiling cannot be met. -/
theorem c1_amended (parts : List (List Char)) :
    (dForL parts = [] ∨ matchesDTag (dForL parts) = true) ∧
    ((dForL parts).length ≤ 75 ∨
      (dForL parts).length ≤ (lastTwoJoin (dForFinalParts parts)).length) :=
  ⟨dForL_shape parts, dForL_length parts⟩

/-! ## Claim C8: deduplication and the duplicate counter -/

/-- cmd_generate duplicate check: scan the events, read the first d tag of
each (break at first match), skip falsy values, and count every d already
seen; the seen set maps each d to its first index, which the count does
not need. -/
def countDupsAux : List String → List Event → Nat
  | _, [] => 0
  | seen, e :: rest =>
    match firstTagVal "d" e.tags with
    | some d =>
      if d ≠ "" then
        if d ∈ seen then countDupsAux seen rest + 1
        else countDupsAux (d :: seen) rest
      else countDupsAux seen rest
    | none => countDupsAux seen rest

/-- cmd_generate: the reported number of duplicate d tags. -/
def countDuplicateDTags (events : List Event) : Nat :=
  countDupsAux [] events

/-- The truthy first d tags of the emitted events, in order: exactly the
values the duplicate counter inspects. -/
def dTagsOf (events : List Event) : List String :=
  events.filterMap (fun e =>
    match firstTagVal "d" e.tags with
    | some d => if d ≠ "" then some d else none
    | none => none)

def c8Ctx : Ctx := Ctx.mk "dupbook" "en" true none none

def c8Path1 : List String := ["Dup Book", "Hello World"]
def c8Path2 : List String := ["Dup Book", "hello world"]

def c8Tree : CollectionTree :=
  CollectionTree.mk
    [SectionEntry.mk c8Path1 [1, 2] "first",
     SectionEntry.mk c8Path2 [1, 2] "second"]
    2

def c8Events : List Event := serializeBookstr c8Ctx c8Tree

/-- C8 counterexample: two distinct heading paths normalizing to the same
identifier yield one emitted content record, but the run summary counts
zero dropped duplicates, not one: the compiler drops the later occurrence
before the counter ever sees it. -/
theorem c8_counterexample :
    c8Path1 ≠ c8Path2 ∧
    dFor (c8Ctx.collectionId :: c8Path1) = dFor (c8Ctx.collectionId :: c8Path2) ∧
    (c8Events.filter (fun e => e.kind == 30041)).length = 1 ∧
    ¬countDuplicateDTags c8Events = 1 := by
  refine ⟨by decide, by decide, by decide, by decide⟩

theorem countDupsAux_eq_zero :
    ∀ (events : List Event) (seen : List String),
      (dTagsOf events).Nodup → (∀ d ∈ dTagsOf events, ¬d ∈ seen) →
      countDupsAux seen events = 0 := by
  intro events
  induction events with
  | nil => intro seen _ _; rfl
  | cons e rest ih =>
    intro seen hnd hdis
    rcases hfd : firstTagVal "d" e.tags with _ | d
    · have hdt : dTagsOf (e :: rest) = dTagsOf rest := by
        unfold dTagsOf
        rw [List.filterMap_cons, hfd]
      rw [hdt] at hnd hdis
      rw [countDupsAux, hfd]
      exact ih seen hnd hdis
    · by_cases hne : d ≠ ""
      · have hdt : dTagsOf (e :: rest) = d :: dTagsOf rest := by
          unfold dTagsOf
          rw [List.filterMap_cons, hfd]
          simp [hne]
        rw [hdt] at hnd hdis
        have hdseen : ¬d ∈ seen := hdis d (List.mem_cons_self _ _)
        rw [countDupsAux, hfd]
        dsimp only
        rw [if_pos hne, if_neg hdseen]
        refine ih (d :: seen) (List.Nodup.of_cons hnd) ?_
        intro x hx hmem
        rcases List.mem_cons.mp hmem with h1 | h1
        · subst h1
          exact (List.nodup_cons.mp hnd).1 hx
        · exact hdis x (List.mem_cons_of_mem _ hx) h1
      · have hdt : dTagsOf (e :: rest) = dTagsOf rest := by
          unfold dTagsOf
          rw [List.filterMap_cons, hfd]
          simp [hne]
        rw [hdt] at hnd hdis
        rw [countDupsAux, hfd]
        dsimp only
        rw [if_neg hne]
        exact ih seen hnd hdis

/-- C8 as amended: the run summary counts duplicates among the emitted
records only, so a dropped duplicate is never counted: whenever the
emitted truthy d tags are pairwise distinct the counter reports zero.
On two distinct heading paths with the same normalized identifier, only
the first is emitted (its content survives), the later one is silently
dropped, the emitted d tags are distinct, and the summary reports zero
dropped duplicates, not one. -/
theorem c8_amended :
    (∀ events : List Event, (dTagsOf events).Nodup →
      countDuplicateDTags events = 0) ∧
    c8Path1 ≠ c8Path2 ∧
    dFor (c8Ctx.collectionId :: c8Path1) = dFor (c8Ctx.collectionId :: c8Path2) ∧
    (dTagsOf c8Events).Nodup ∧
    (c8Events.filter (fun e => e.kind == 30041)).length = 1 ∧
    (∃ e ∈ c8Events, e.kind == 30041 ∧ e.content = "first" ∧
      firstTagVal "d" e.tags = some (dFor (c8Ctx.collectionId :: c8Path1))) ∧
    (∀ e ∈ c8Events, e.content ≠ "second") ∧
    countDuplicateDTags c8Events = 0 := by
  refine ⟨?_, by decide, by decide, by decide, by decide, by decide,
    by decide, by decide⟩
  intro events hnd
  exact countDupsAux_eq_zero events [] hnd (by simp)

/-! ## Tag-shape invariant of the compiler: a d tag first, and a
parametric family of heads that never occur among the later tags -/

/-- The tag heads the compiler itself appends after the d tag. -/
def fixedKeys : List String :=
  ["title", "L", "m", "author", "published_on", "published_by", "summary",
   "source", "image", "p", "E", "type", "auto-update", "C", "T", "c", "s",
   "v", "_parent_d"]

/-- No tag head of the list satisfies the banned-head predicate. -/
def NoBad (bad : String → Prop) (tags : List (List String)) : Prop :=
  ∀ t ∈ tags, ¬bad (t.getD 0 "")

/-- The tag list opens with a two-element d tag and no later tag has a
banned head. -/
def DTagsB (bad : String → Prop) (tags : List (List String)) : Prop :=
  ∃ dv rest, tags = ["d", dv] :: rest ∧ NoBad bad rest

/-- The banned-head predicate rejects none of the fixed compiler heads. -/
@[reducible] def keyFree (bad : String → Prop) : Prop :=
  ∀ k ∈ fixedKeys, ¬bad k

/-- The d-instantiation: exactly the one-d-tag-first shape. -/
def DTags (tags : List (List String)) : Prop :=
  DTagsB (fun k => k = "d") tags

/-- The number of d tags of a tag list. -/
def dHeadCount (tags : List (List String)) : Nat :=
  (tags.filter (fun t => t.getD 0 "" == "d")).length

theorem noBad_append {bad : String → Prop} {l l' : List (List String)}
    (h : NoBad bad l) (h' : NoBad bad l') : NoBad bad (l ++ l') := by
  intro t ht
  rcases List.mem_append.mp ht with h1 | h1
  · exact h t h1
  · exact h' t h1

theorem noBad_singleTag {bad : String → Prop} {x : String} {vs : List String}
    (hx : ¬bad x) : NoBad bad [x :: vs] := by
  intro t ht
  simp only [List.mem_singleton] at ht
  subst ht
  simpa using hx

theorem noBad_fixedTag {bad : String → Prop} (hb : keyFree bad) {x : String}
    {vs : List String} (hx : x ∈ fixedKeys) : NoBad bad [x :: vs] :=
  noBad_singleTag (hb x hx)

theorem dTagsB_append {bad : String → Prop} {tags suf : List (List String)}
    (h : DTagsB bad tags) (hs : NoBad bad suf) : DTagsB bad (tags ++ suf) := by
  rcases h with ⟨dv, rest, hre, hnd⟩
  refine ⟨dv, rest ++ suf, ?_, noBad_append hnd hs⟩
  rw [hre]
  rfl

theorem dTagsB_appendIfSome {bad : String → Prop} (hb : keyFree bad)
    {tags : List (List String)} {v : Option String} {key : String}
    (hk : key ∈ fixedKeys) (h : DTagsB bad tags) :
    DTagsB bad (appendIfSome tags v key) := by
  unfold appendIfSome
  split
  · exact dTagsB_append h (noBad_fixedTag hb hk)
  · exact h

theorem dTagsB_appendNE {bad : String → Prop} (hb : keyFree bad)
    {tags : List (List String)} {key v : String} (hk : key ∈ fixedKeys)
    (h : DTagsB bad tags) : DTagsB bad (appendNE tags key v) := by
  unfold appendNE
  split
  · exact dTagsB_append h (noBad_fixedTag hb hk)
  · exact h

theorem getD_zero_take_two (t : List String) :
    (t.take 2).getD 0 "" = t.getD 0 "" := by
  cases t <;> rfl

theorem dTagsB_titleStage {bad : String → Prop} (hb : keyFree bad)
    (ctx : Ctx) {tags : List (List String)} (h : DTagsB bad tags) :
    DTagsB bad (titleStage ctx tags) := by
  unfold titleStage
  split
  · rename_i ti hti
    rcases h with ⟨dv, rest, hre, hnd⟩
    subst hre
    refine ⟨dv,
      rest.map (fun t =>
        if t.getD 0 "" ≠ "title" then t.take 2 else ["title", ti]), ?_, ?_⟩
    · rfl
    · intro t ht
      rcases List.mem_map.mp ht with ⟨t0, ht0, hfn⟩
      by_cases hcond : t0.getD 0 "" ≠ "title"
      · rw [← hfn, if_pos hcond, getD_zero_take_two]
        exact hnd t0 ht0
      · rw [← hfn, if_neg hcond]
        exact hb "title" (by decide)
  · exact h

theorem dTagsB_derivStage {bad : String → Prop} (hb : keyFree bad)
    (ctx : Ctx) {tags : List (List String)} (h : DTagsB bad tags) :
    DTagsB bad (derivStage ctx tags) := by
  unfold derivStage
  dsimp only
  split
  · split
    · exact dTagsB_append (dTagsB_append h (noBad_fixedTag hb (by decide)))
        (noBad_fixedTag hb (by decide))
    · exact dTagsB_append h (noBad_fixedTag hb (by decide))
  · exact h

theorem dTagsB_rootMdTags {bad : String → Prop} (hb : keyFree bad) (ctx : Ctx)
    (hmd : ∀ t ∈ mdAddl ctx.md, ¬bad (t.getD 0 ""))
    {tags0 : List (List String)} (h : DTagsB bad tags0) :
    DTagsB bad (rootMdTags ctx tags0) := by
  unfold rootMdTags
  refine dTagsB_append ?_ (fun t ht => hmd t (List.mem_of_mem_filter ht))
  exact dTagsB_derivStage hb ctx
    (dTagsB_appendIfSome hb (by decide)
      (dTagsB_appendIfSome hb (by decide)
        (dTagsB_appendIfSome hb (by decide)
          (dTagsB_appendIfSome hb (by decide)
            (dTagsB_appendIfSome hb (by decide)
              (dTagsB_appendIfSome hb (by decide)
                (dTagsB_titleStage hb ctx h)))))))

theorem dTagsB_typeTags {bad : String → Prop} (hb : keyFree bad) (ctx : Ctx)
    {tags : List (List String)} (h : DTagsB bad tags) :
    DTagsB bad (typeTags ctx tags) :=
  dTagsB_append h (noBad_fixedTag hb (by decide))

theorem dTagsB_autoUpdateTags {bad : String → Prop} (hb : keyFree bad)
    (ctx : Ctx) {tags : List (List String)} (h : DTagsB bad tags) :
    DTagsB bad (autoUpdateTags ctx tags) :=
  dTagsB_append h (noBad_fixedTag hb (by decide))

theorem dTagsB_imageSummaryTags {bad : String → Prop} (hb : keyFree bad)
    (ctx : Ctx) {tags : List (List String)} (h : DTagsB bad tags) :
    DTagsB bad (imageSummaryTags ctx tags) := by
  unfold imageSummaryTags
  split
  · exact dTagsB_appendIfSome hb (by decide)
      (dTagsB_appendIfSome hb (by decide) h)
  · exact h

theorem dTagsB_collectionCTag {bad : String → Prop} (hb : keyFree bad)
    (ctx : Ctx) {tags : List (List String)} (h : DTagsB bad tags) :
    DTagsB bad (collectionCTag ctx tags) := by
  unfold collectionCTag
  split
  · exact dTagsB_appendNE hb (by decide) h
  · exact h

theorem dTagsB_addBookTTags {bad : String → Prop} (hb : keyFree bad)
    {tags : List (List String)} (bt : String)
    (btm : Option (List (String × CanonInfo))) (h : DTagsB bad tags) :
    DTagsB bad (addBookTTags tags bt btm) := by
  unfold addBookTTags
  dsimp only
  repeat' split
  all_goals
    repeat
      first
      | exact h
      | refine dTagsB_append ?_ (noBad_fixedTag hb (by decide))

theorem dTagsB_tTagStage {bad : String → Prop} (hb : keyFree bad) (ctx : Ctx)
    (r b : Bool) (mbt : Option String) {tags : List (List String)}
    (h : DTagsB bad tags) : DTagsB bad (tTagStage ctx r b mbt tags) := by
  unfold tTagStage
  repeat' split
  all_goals
    first
    | exact dTagsB_appendNE hb (by decide) h
    | exact dTagsB_addBookTTags hb _ _ h
    | exact h

theorem dTagsB_chapterStage {bad : String → Prop} (hb : keyFree bad)
    (ctx : Ctx) (c : Bool) (dPath : List String) (title : String)
    (mbt : Option String) {tags : List (List String)} (h : DTagsB bad tags) :
    DTagsB bad (chapterStage ctx c dPath title mbt tags) := by
  unfold chapterStage
  dsimp only
  split
  · refine dTagsB_appendNE hb (by decide) ?_
    repeat' split
    all_goals
      first
      | exact dTagsB_addBookTTags hb _ _ h
      | exact h
  · exact h

theorem dTagsB_versionStage {bad : String → Prop} (hb : keyFree bad)
    (ctx : Ctx) {tags : List (List String)} (h : DTagsB bad tags) :
    DTagsB bad (versionStage ctx tags) := by
  unfold versionStage
  split
  · exact dTagsB_appendNE hb (by decide) h
  · exact h

theorem foldl_pres {α β : Type} (f : β → α → β) (P : β → Prop) (Q : α → Prop)
    (hstep : ∀ b a, Q a → P b → P (f b a)) :
    ∀ (l : List α) (b : β), (∀ a ∈ l, Q a) → P b → P (l.foldl f b) := by
  intro l
  induction l with
  | nil => intro b _ hb; simpa using hb
  | cons a t ih =>
    intro b hq hb
    rw [List.foldl_cons]
    exact ih _ (fun x hx => hq x (List.mem_cons_of_mem a hx))
      (hstep b a (hq a (List.mem_cons_self a t)) hb)

theorem dTagsB_base4 {bad : String → Prop} (hb : keyFree bad)
    (vD vT lg : String) :
    DTagsB bad [["d", vD], ["title", vT], ["L", lg], ["m", "text/asciidoc"]] := by
  refine ⟨vD, _, rfl, ?_⟩
  intro t ht
  simp only [List.mem_cons, List.not_mem_nil, or_false] at ht
  rcases ht with h | h | h
  · subst h; exact hb "title" (by decide)
  · subst h; exact hb "L" (by decide)
  · subst h; exact hb "m" (by decide)

theorem dTagsB_emitIndex {bad : String → Prop} (hb : keyFree bad) (ctx : Ctx)
    (cs : CompileState) (dPath : List String) (title : String)
    (mbt : Option String) (r b c : Bool)
    (hmd : ∀ t ∈ mdAddl ctx.md, ¬bad (t.getD 0 ""))
    (hcs : ∀ e ∈ cs.events, DTagsB bad e.tags) :
    ∀ e ∈ (emitIndex ctx cs dPath title mbt r b c).events,
      DTagsB bad e.tags := by
  unfold emitIndex
  dsimp only
  split
  · exact hcs
  · intro e he
    dsimp only at he
    simp only [List.mem_append, List.mem_singleton] at he
    rcases he with h1 | h1
    · exact hcs e h1
    · subst h1
      have h0 := dTagsB_base4 hb (dFor (ctx.collectionId :: dPath)) title
        ctx.language
      refine dTagsB_versionStage hb ctx ?_
      refine dTagsB_chapterStage hb ctx _ _ _ _ ?_
      refine dTagsB_tTagStage hb ctx _ _ _ ?_
      refine dTagsB_collectionCTag hb ctx ?_
      refine dTagsB_imageSummaryTags hb ctx ?_
      refine dTagsB_autoUpdateTags hb ctx ?_
      refine dTagsB_typeTags hb ctx ?_
      split
      · exact dTagsB_rootMdTags hb ctx hmd h0
      · exact h0

theorem dTagsB_emitAncestorLoop {bad : String → Prop} (hb : keyFree bad)
    (ctx : Ctx) (titles : List String) (n : Nat) {cs : CompileState}
    (hmd : ∀ t ∈ mdAddl ctx.md, ¬bad (t.getD 0 ""))
    (hcs : ∀ e ∈ cs.events, DTagsB bad e.tags) :
    ∀ e ∈ (emitAncestorLoop ctx titles cs n).events, DTagsB bad e.tags := by
  unfold emitAncestorLoop
  exact foldl_pres _ (fun cs => ∀ e ∈ cs.events, DTagsB bad e.tags)
    (fun _ => True)
    (fun cs i _ h => dTagsB_emitIndex hb ctx cs _ _ _ _ _ _ hmd h)
    _ _ (fun _ _ => trivial) hcs

theorem dTagsB_verseTags {bad : String → Prop} (hb : keyFree bad) (ctx : Ctx)
    (titles : List String) (bookIdx chapterIdx : Nat)
    (verseD verseTitle : String) :
    DTagsB bad (verseTags ctx titles bookIdx chapterIdx verseD verseTitle) := by
  unfold verseTags
  dsimp only
  refine dTagsB_versionStage hb ctx (dTagsB_appendNE hb (by decide) ?_)
  have hbase : DTagsB bad (collectionCTag ctx (imageSummaryTags ctx
      (typeTags ctx [["d", verseD], ["title", verseTitle],
        ["L", ctx.language], ["m", "text/asciidoc"]]))) :=
    dTagsB_collectionCTag hb ctx (dTagsB_imageSummaryTags hb ctx
      (dTagsB_typeTags hb ctx (dTagsB_base4 hb _ _ _)))
  repeat' split
  all_goals
    first
    | exact dTagsB_appendNE hb (by decide) (dTagsB_addBookTTags hb _ _ hbase)
    | exact dTagsB_appendNE hb (by decide) hbase
    | exact dTagsB_addBookTTags hb _ _ hbase
    | exact hbase

theorem dTagsB_sectionTags {bad : String → Prop} (hb : keyFree bad)
    (ctx : Ctx) (titles : List String) (verseD verseTitle : String) :
    DTagsB bad (sectionTags ctx titles verseD verseTitle) := by
  unfold sectionTags
  dsimp only
  refine dTagsB_versionStage hb ctx (dTagsB_appendNE hb (by decide) ?_)
  have hbase : DTagsB bad (collectionCTag ctx
      (typeTags ctx [["d", verseD], ["title", verseTitle],
        ["L", ctx.language], ["m", "text/asciidoc"]])) :=
    dTagsB_collectionCTag hb ctx (dTagsB_typeTags hb ctx
      (dTagsB_base4 hb _ _ _))
  repeat' split
  all_goals
    first
    | exact dTagsB_appendNE hb (by decide) (dTagsB_addBookTTags hb _ _ hbase)
    | exact dTagsB_appendNE hb (by decide) hbase
    | exact dTagsB_addBookTTags hb _ _ hbase
    | exact hbase

theorem dTagsB_processVerseEntry {bad : String → Prop} (hb : keyFree bad)
    (ctx : Ctx) (hmd : ∀ t ∈ mdAddl ctx.md, ¬bad (t.getD 0 ""))
    {cs : CompileState} (entry : SectionEntry)
    (hcs : ∀ e ∈ cs.events, DTagsB bad e.tags) :
    ∀ e ∈ (processVerseEntry ctx cs entry).events, DTagsB bad e.tags := by
  unfold processVerseEntry
  dsimp only
  set titles := entry.path_titles with htitles
  set chapterIdx := chapterIdxOf titles (titles.length - 1) with hchap
  set bookIdx := chapterIdx - 1 with hbook
  set cs1 := emitAncestorLoop ctx titles cs bookIdx with hcs1
  set cs2 := if bookIdx < titles.length then
      emitIndex ctx cs1 (titles.take (bookIdx + 1)) (titles.getD bookIdx "")
        (some (titles.getD bookIdx "")) false true false
    else cs1 with hcs2
  set cs3 := if chapterIdx < titles.length then
      emitIndex ctx cs2 (titles.take (chapterIdx + 1))
        (titles.getD chapterIdx "")
        (if bookIdx < titles.length then some (titles.getD bookIdx "")
         else none)
        false false true
    else cs2 with hcs3
  have h1 : ∀ e ∈ cs1.events, DTagsB bad e.tags := by
    rw [hcs1]
    exact dTagsB_emitAncestorLoop hb ctx titles bookIdx hmd hcs
  have h2 : ∀ e ∈ cs2.events, DTagsB bad e.tags := by
    rw [hcs2]
    split
    · exact dTagsB_emitIndex hb ctx cs1 _ _ _ _ _ _ hmd h1
    · exact h1
  have h3 : ∀ e ∈ cs3.events, DTagsB bad e.tags := by
    rw [hcs3]
    split
    · exact dTagsB_emitIndex hb ctx cs2 _ _ _ _ _ _ hmd h2
    · exact h2
  repeat' split
  all_goals intro e he
  all_goals try dsimp only at he
  all_goals
    first
    | exact h3 e he
    | (simp only [List.mem_append, List.mem_singleton] at he
       rcases he with hh | hh
       · exact h3 e hh
       · subst hh
         exact dTagsB_verseTags hb _ _ _ _ _ _)

theorem dTagsB_processSectionEntry {bad : String → Prop} (hb : keyFree bad)
    (ctx : Ctx) (hmd : ∀ t ∈ mdAddl ctx.md, ¬bad (t.getD 0 ""))
    {cs : CompileState} (entry : SectionEntry)
    (hcs : ∀ e ∈ cs.events, DTagsB bad e.tags) :
    ∀ e ∈ (processSectionEntry ctx cs entry).events, DTagsB bad e.tags := by
  unfold processSectionEntry
  dsimp only
  set titles := entry.path_titles with htitles
  set cs1 :=
    (if titles.length > 1 then
      emitAncestorLoop ctx titles cs (titles.length - 1)
    else if titles.length = 1 then
      emitIndex ctx cs (titles.take 1) (titles.getD 0 "") none true false false
    else cs) with hcs1
  have h1 : ∀ e ∈ cs1.events, DTagsB bad e.tags := by
    rw [hcs1]
    split
    · exact dTagsB_emitAncestorLoop hb ctx titles _ hmd hcs
    · split
      · exact dTagsB_emitIndex hb ctx cs _ _ _ _ _ _ hmd hcs
      · exact hcs
  repeat' split
  all_goals intro e he
  all_goals try dsimp only at he
  all_goals
    first
    | exact h1 e he
    | (simp only [List.mem_append, List.mem_singleton] at he
       rcases he with hh | hh
       · exact h1 e hh
       · subst hh
         exact dTagsB_sectionTags hb _ _ _ _)

theorem dTagsB_processEntry {bad : String → Prop} (hb : keyFree bad)
    (ctx : Ctx) (verseLevel : Nat)
    (hmd : ∀ t ∈ mdAddl ctx.md, ¬bad (t.getD 0 ""))
    {cs : CompileState} (entry : SectionEntry)
    (hcs : ∀ e ∈ cs.events, DTagsB bad e.tags) :
    ∀ e ∈ (processEntry ctx verseLevel cs entry).events, DTagsB bad e.tags := by
  unfold processEntry
  dsimp only
  split
  · exact dTagsB_processSectionEntry hb ctx hmd entry hcs
  · exact dTagsB_processVerseEntry hb ctx hmd entry hcs

theorem dTagsB_compileEmission {bad : String → Prop} (hb : keyFree bad)
    (ctx : Ctx) (tree : CollectionTree)
    (hmd : ∀ t ∈ mdAddl ctx.md, ¬bad (t.getD 0 "")) :
    ∀ e ∈ (compileEmission ctx tree).events, DTagsB bad e.tags := by
  unfold compileEmission
  refine foldl_pres _ (fun cs => ∀ e ∈ cs.events, DTagsB bad e.tags)
    (fun _ => True)
    (fun (cs : CompileState) (entry : SectionEntry) _ h =>
      dTagsB_processEntry hb ctx tree.section_level hmd entry h)
    _ _ (fun _ _ => trivial) ?_
  intro e he
  exact absurd he (List.not_mem_nil e)

theorem getDMem {α : Type} {l : List α} {j : Nat} (d : α)
    (h : j < l.length) : l.getD j d ∈ l := by
  rw [List.getD_eq_getElem?_getD, List.getElem?_eq_getElem h]
  exact List.getElem_mem h

theorem dTagsB_phaseB {bad : String → Prop} (hb : keyFree bad)
    (dToParent : List (String × String)) (events : List Event)
    (hin : ∀ e ∈ events, DTagsB bad e.tags) :
    ∀ e ∈ (phaseB dToParent events).events, DTagsB bad e.tags := by
  unfold phaseB
  refine foldl_pres _
    (fun (st : LinkState) => ∀ e ∈ st.events, DTagsB bad e.tags)
    (fun (e : Event) => DTagsB bad e.tags) ?_ _ _ hin ?_
  · intro st e hq hst
    unfold phaseBStep
    dsimp only
    split
    · intro x hx
      dsimp only at hx
      simp only [List.mem_append, List.mem_singleton] at hx
      rcases hx with h1 | h1
      · exact hst x h1
      · subst h1
        exact dTagsB_append hq (noBad_fixedTag hb (by decide))
    · intro x hx
      dsimp only at hx
      simp only [List.mem_append, List.mem_singleton] at hx
      rcases hx with h1 | h1
      · exact hst x h1
      · subst h1
        exact hq
  · intro e he
    exact absurd he (List.not_mem_nil e)

theorem dTagsB_mkPreambleEvent {bad : String → Prop} (hb : keyFree bad)
    (ctx : Ctx) (pd : String) (bt : Option String) :
    DTagsB bad (mkPreambleEvent ctx pd bt).tags := by
  unfold mkPreambleEvent
  dsimp only
  refine dTagsB_versionStage hb ctx
    (dTagsB_append
      (dTagsB_appendNE hb (by decide) (dTagsB_collectionCTag hb ctx ?_))
      (noBad_fixedTag hb (by decide)))
  refine ⟨pd, _, rfl, ?_⟩
  intro t ht
  simp only [List.mem_cons, List.not_mem_nil, or_false] at ht
  rcases ht with h | h | h | h | h
  · subst h; exact hb "title" (by decide)
  · subst h; exact hb "L" (by decide)
  · subst h; exact hb "m" (by decide)
  · subst h; exact hb "type" (by decide)
  · subst h; exact hb "auto-update" (by decide)

theorem dTagsB_updateParentTag {bad : String → Prop} (hb : keyFree bad)
    (pd : String) {tags : List (List String)} (h : DTagsB bad tags) :
    DTagsB bad (updateParentTag pd tags) := by
  rcases h with ⟨dv, rest, hre, hnd⟩
  subst hre
  unfold updateParentTag
  split
  · rename_i i heq
    rcases List.findIdx?_eq_some_iff_findIdx_eq.mp heq with ⟨hlt, hfi⟩
    rw [List.findIdx_cons] at hfi
    have hc : (!(["d", dv] : List String).isEmpty &&
        (["d", dv] : List String).getD 0 "" == "_parent_d") = false := rfl
    rw [hc, cond_false] at hfi
    subst hfi
    rw [List.set_cons_succ]
    refine ⟨dv, _, rfl, ?_⟩
    intro t ht
    rcases List.mem_or_eq_of_mem_set ht with h1 | h1
    · exact hnd t h1
    · subst h1
      exact hb "_parent_d" (by decide)
  · exact dTagsB_append ⟨dv, rest, rfl, hnd⟩ (noBad_fixedTag hb (by decide))

theorem dTagsB_reparentChild {bad : String → Prop} (hb : keyFree bad)
    (ctx : Ctx) (dBook preambleD : String) (ck : Nat) (cd : String)
    {st : SynthState} (hst : ∀ e ∈ st.events, DTagsB bad e.tags) :
    ∀ e ∈ (reparentChild ctx dBook preambleD ck cd st).events,
      DTagsB bad e.tags := by
  unfold reparentChild
  split
  · rename_i j hj
    intro e he
    dsimp only at he
    rcases List.mem_or_eq_of_mem_set he with h1 | h1
    · exact hst e h1
    · subst h1
      refine dTagsB_updateParentTag hb preambleD ?_
      have hlt := (List.findIdx?_eq_some_iff_findIdx_eq.mp hj).1
      exact hst _ (getDMem _ hlt)
  · exact hst

theorem dTagsB_synthStepAt {bad : String → Prop} (hb : keyFree bad)
    (ctx : Ctx) {st : SynthState} (i : Nat)
    (hst : ∀ e ∈ st.events, DTagsB bad e.tags) :
    ∀ e ∈ (synthStepAt ctx st i).events, DTagsB bad e.tags := by
  unfold synthStepAt
  dsimp only
  repeat' split
  all_goals try exact hst
  refine foldl_pres _
    (fun (st : SynthState) => ∀ e ∈ st.events, DTagsB bad e.tags)
    (fun _ => True)
    (fun (st : SynthState) (p : Nat × String) _ h =>
      dTagsB_reparentChild hb ctx _ _ p.1 p.2 h)
    _ _ (fun _ _ => trivial) ?_
  intro e he
  dsimp only at he
  simp only [List.mem_append, List.mem_singleton] at he
  rcases he with h1 | h1
  · exact hst e h1
  · subst h1
    exact dTagsB_mkPreambleEvent hb ctx _ _

theorem dTagsB_synthLoop {bad : String → Prop} (hb : keyFree bad)
    (ctx : Ctx) :
    ∀ (fuel i : Nat) (st : SynthState),
      (∀ e ∈ st.events, DTagsB bad e.tags) →
      ∀ e ∈ (synthLoop ctx fuel i st).events, DTagsB bad e.tags := by
  intro fuel
  induction fuel with
  | zero =>
    intro i st hst
    simpa [synthLoop] using hst
  | succ fuel ih =>
    intro i st hst
    rw [synthLoop]
    split
    · exact ih (i + 1) _ (dTagsB_synthStepAt hb ctx i hst)
    · exact hst

theorem dTagsB_serializeSynth {bad : String → Prop} (hb : keyFree bad)
    (ctx : Ctx) (tree : CollectionTree)
    (hmd : ∀ t ∈ mdAddl ctx.md, ¬bad (t.getD 0 "")) :
    ∀ e ∈ (serializeSynth ctx tree).events, DTagsB bad e.tags := by
  unfold serializeSynth phaseC serializeLinked
  dsimp only
  intro e0 he0
  refine dTagsB_synthLoop hb ctx _ 0 _ ?_ e0 he0
  exact dTagsB_phaseB hb _ _ (dTagsB_compileEmission hb ctx tree hmd)

theorem dTags_aTagFold (eventType : String) (l : List (Nat × String))
    {tags0 : List (List String)} (h : DTags tags0) :
    DTags (l.foldl
      (fun tags p =>
        if eventType = "book" ∧ p.1 = 30041 then tags
        else tags ++ [aTagOf p])
      tags0) := by
  induction l generalizing tags0 with
  | nil => simpa using h
  | cons p t ih =>
    rw [List.foldl_cons]
    refine ih ?_
    split
    · exact h
    · exact dTagsB_append h (noBad_singleTag (by decide))

theorem dTags_addATags (st : SynthState) {e : Event} (he : DTags e.tags) :
    DTags (addATags st e).tags := by
  unfold addATags
  dsimp only
  repeat' split
  all_goals try exact he
  all_goals
    first
    | exact dTags_aTagFold _ _ he
    | exact dTagsB_append (dTags_aTagFold _ _ he) (noBad_singleTag (by decide))
    | exact dTagsB_append he (noBad_singleTag (by decide))

theorem dTags_serializeBookstr (ctx : Ctx) (tree : CollectionTree)
    (hmd : ∀ t ∈ mdAddl ctx.md, ¬t.getD 0 "" = "d") :
    ∀ e ∈ serializeBookstr ctx tree, DTags e.tags := by
  unfold serializeBookstr phaseD
  intro e he
  rcases List.mem_map.mp he with ⟨e0, he0, hfe⟩
  subst hfe
  refine dTags_addATags _ ?_
  exact dTagsB_serializeSynth (by decide) ctx tree hmd e0 he0

theorem dHeadCount_one {tags : List (List String)} (h : DTags tags) :
    dHeadCount tags = 1 := by
  rcases h with ⟨dv, rest, hre, hnd⟩
  subst hre
  unfold dHeadCount
  rw [List.filter_cons]
  have hhd : ((["d", dv] : List String).getD 0 "" == "d") = true := rfl
  have hres : rest.filter (fun t => t.getD 0 "" == "d") = [] := by
    rw [List.filter_eq_nil_iff]
    intro t ht
    simpa using hnd t ht
  simp only [hhd, if_true, List.length_cons, hres, List.length_nil]

def c10Md : Md := { additional_tags := [["d", "evil"]] }

def c10Ctx : Ctx := Ctx.mk "coll" "en" true none (some c10Md)

def c10Tree : CollectionTree :=
  CollectionTree.mk
    [SectionEntry.mk ["My Coll", "My Book", "Chapter 1", "Verse 1"]
      [1, 2, 3, 4] "v"]
    4

def c10Events : List Event := serializeBookstr c10Ctx c10Tree

/-- C10 counterexample: a metadata additional_tags entry headed d is
appended verbatim to the collection root record, which then carries two
d tags, refuting the exactly-one-d-tag claim. -/
theorem c10_counterexample :
    ∃ e ∈ c10Events, 2 ≤ dHeadCount e.tags := by decide

/-- C10 as amended: when no additional_tags entry is headed d, every
record of the compiler output, Preamble records included, has exactly one
d tag and it is the first tag; every later addition appends after it. -/
theorem c10_amended (ctx : Ctx) (tree : CollectionTree)
    (hmd : ∀ t ∈ mdAddl ctx.md, ¬t.getD 0 "" = "d") :
    ∀ e ∈ serializeBookstr ctx tree,
      (∃ dv rest, e.tags = ["d", dv] :: rest ∧
        ∀ t ∈ rest, ¬t.getD 0 "" = "d") ∧
      dHeadCount e.tags = 1 := by
  intro e he
  have h := dTags_serializeBookstr ctx tree hmd e he
  exact ⟨h, dHeadCount_one h⟩

def c10WCtx : Ctx := Ctx.mk "wcoll" "en" true none none

def c10WTree : CollectionTree :=
  CollectionTree.mk [SectionEntry.mk ["W Book", "Verse 1"] [1, 2] "w"] 2

theorem c10_amended_witness :
    (∀ t ∈ mdAddl c10WCtx.md, ¬t.getD 0 "" = "d") ∧
    (∀ e ∈ serializeBookstr c10WCtx c10WTree,
      (∃ dv rest, e.tags = ["d", dv] :: rest ∧
        ∀ t ∈ rest, ¬t.getD 0 "" = "d") ∧
      dHeadCount e.tags = 1) :=
  ⟨by decide, c10_amended c10WCtx c10WTree (by decide)⟩

/-! ## Claim C5: Preamble synthesis -/

def c5Ctx : Ctx := Ctx.mk "!!" "en" true none none

def c5Tree : CollectionTree :=
  CollectionTree.mk [SectionEntry.mk ["!!", "1:1"] [1, 2] "v"] 2

/-- C5 counterexample: a book whose derived identifier is empty (a
punctuation-only title) keeps a direct kind-30041 child in the adjacency
map, yet no Preamble record is synthesized and no preamble mapping is
recorded: the synthesis guard tests the identifier for truthiness and
skips empty ones. -/
theorem c5_counterexample :
    aGetD (serializeSynth c5Ctx c5Tree).dToType "" "unknown" = "book" ∧
    (∃ p ∈ aGetD (serializeSynth c5Ctx c5Tree).parentChildren "" [],
      p.1 = 30041) ∧
    (∃ e ∈ serializeBookstr c5Ctx c5Tree,
      e.kind = 30040 ∧ firstTagVal "d" e.tags = some "") ∧
    (∀ e ∈ (serializeSynth c5Ctx c5Tree).events,
      ¬firstTagVal "title" e.tags = some "Preamble") ∧
    aLookup (serializeSynth c5Ctx c5Tree).bookPreamble "" = none := by
  refine ⟨by decide, by decide, by decide, by decide, by decide⟩

/-! ## Claim C4: address tags versus recorded children -/

/-- The address tags that the a-tag pass appends to one event: nothing for
content records; for an index record, one tag per recorded child of its
first d tag (content children of book-typed nodes skipped), then the
Preamble tag when the book has one. -/
def aTagsFor (st : SynthState) (e : Event) : List (List String) :=
  if e.kind = 30040 then
    let dTag := firstTagVal "d" e.tags
    let hasPre : Option String :=
      match dTag with
      | some d => aLookup st.bookPreamble d
      | none => none
    (if (dTag.getD "") ≠ "" ∧ aMem st.parentChildren (dTag.getD "") then
      ((aGetD st.parentChildren (dTag.getD "") []).filter
        (fun p =>
          !(decide (aGetD st.dToType (dTag.getD "") "unknown" = "book" ∧
            p.1 = 30041)))).map aTagOf
    else []) ++
    (match hasPre with
     | some pd =>
       [["a", "30040:" ++ placeholderPubkey ++ ":" ++ pd, "", ""]]
     | none => [])
  else []

theorem aTagFold_eq (ty : String) (l : List (Nat × String)) :
    ∀ tags0 : List (List String),
      l.foldl
        (fun tags p =>
          if ty = "book" ∧ p.1 = 30041 then tags else tags ++ [aTagOf p])
        tags0 =
      tags0 ++
        (l.filter (fun p => !(decide (ty = "book" ∧ p.1 = 30041)))).map
          aTagOf := by
  induction l with
  | nil => intro t0; simp
  | cons p t ih =>
    intro t0
    rw [List.foldl_cons, List.filter_cons]
    by_cases hc : ty = "book" ∧ p.1 = 30041
    · have hq : (!(decide (ty = "book" ∧ p.1 = 30041))) = false := by
        simp [hc]
      rw [if_pos hc, ih, hq]
      simp
    · have hq : (!(decide (ty = "book" ∧ p.1 = 30041))) = true := by
        simp [hc]
      rw [if_neg hc, ih, hq]
      simp [List.append_assoc]

/-- The a-tag pass appends exactly the aTagsFor tags. -/
theorem addATags_tags (st : SynthState) (e : Event) :
    (addATags st e).tags = e.tags ++ aTagsFor st e := by
  unfold addATags aTagsFor
  dsimp only
  repeat' split
  all_goals
    first
    | (rw [aTagFold_eq]; simp)
    | simp

theorem firstTagVal_cons_d (dv : String) (l : List (List String)) :
    firstTagVal "d" (["d", dv] :: l) = some dv := by
  simp [firstTagVal]

theorem aTagsFor_heads (st : SynthState) (e : Event) :
    ∀ t ∈ aTagsFor st e, t.getD 0 "" = "a" := by
  unfold aTagsFor
  dsimp only
  intro t ht
  split at ht
  · rcases List.mem_append.mp ht with h1 | h1
    · split at h1
      · rcases List.mem_map.mp h1 with ⟨p, hp, hpt⟩
        rw [← hpt]
        rfl
      · exact absurd h1 (List.not_mem_nil t)
    · split at h1
      · simp only [List.mem_singleton] at h1
        subst h1
        rfl
      · exact absurd h1 (List.not_mem_nil t)
  · exact absurd ht (List.not_mem_nil t)

def c4Md : Md := { additional_tags := [["a", "30041:deadbeef:invented", "", ""]] }

def c4Ctx : Ctx := Ctx.mk "c4" "en" true none (some c4Md)

def c4Tree : CollectionTree :=
  CollectionTree.mk
    [SectionEntry.mk ["My Coll", "My Book", "Chapter 1", "Verse 1"]
      [1, 2, 3, 4] "v"]
    4

def c4D : String := dFor [c4Ctx.collectionId, "My Coll"]

/-- C4 counterexample: an additional_tags address entry is copied verbatim
onto the collection root, so the root index carries an address tag whose
target is not among the recorded children of that node — the address-tag
set and the recorded child set differ. -/
theorem c4_counterexample :
    (∃ e ∈ serializeBookstr c4Ctx c4Tree,
      e.kind = 30040 ∧ firstTagVal "d" e.tags = some c4D ∧
      ["a", "30041:deadbeef:invented", "", ""] ∈ e.tags) ∧
    (∀ p ∈ aGetD (serializeSynth c4Ctx c4Tree).parentChildren c4D [],
      ¬p.2 = "invented") := by
  refine ⟨by decide, by decide⟩

/-- The address tags of every output record are exactly the aTagsFor list
of the final synthesis state, provided no additional_tags entry is headed
d or a. -/
theorem aTags_exact (ctx : Ctx) (tree : CollectionTree)
    (hmda : ∀ t ∈ mdAddl ctx.md,
      ¬(t.getD 0 "" = "d" ∨ t.getD 0 "" = "a")) :
    ∀ e ∈ serializeBookstr ctx tree,
      ∃ e0 ∈ (serializeSynth ctx tree).events,
        firstTagVal "d" e0.tags = firstTagVal "d" e.tags ∧
        e.tags.filter (fun t => t.getD 0 "" == "a") =
          aTagsFor (serializeSynth ctx tree) e0 := by
  intro e he
  unfold serializeBookstr phaseD at he
  rcases List.mem_map.mp he with ⟨e0, he0, hfe⟩
  have hDA := @dTagsB_serializeSynth (fun k => k = "d" ∨ k = "a")
    (by decide) ctx tree hmda e0 he0
  rcases hDA with ⟨dv, rest, hre, hnd⟩
  refine ⟨e0, he0, ?_, ?_⟩
  · rw [← hfe, addATags_tags, hre, List.cons_append, firstTagVal_cons_d,
      firstTagVal_cons_d]
  · rw [← hfe, addATags_tags, List.filter_append]
    have h0 : e0.tags.filter (fun t => t.getD 0 "" == "a") = [] := by
      rw [hre, List.filter_cons]
      have hhd : ((["d", dv] : List String).getD 0 "" == "a") = false := rfl
      rw [hhd]
      simp only [Bool.false_eq_true, if_false]
      rw [List.filter_eq_nil_iff]
      intro t ht
      simp only [beq_iff_eq]
      intro habs
      exact hnd t ht (Or.inr habs)
    have h1 : (aTagsFor (serializeSynth ctx tree) e0).filter
        (fun t => t.getD 0 "" == "a") =
        aTagsFor (serializeSynth ctx tree) e0 := by
      rw [List.filter_eq_self]
      intro t ht
      simp only [beq_iff_eq]
      exact aTagsFor_heads _ _ t ht
    rw [h0, h1, List.nil_append]

/-- C4 as amended: when no additional_tags entry is headed d or a, the
address tags of every record are exactly the aTagsFor list computed from
the recorded post-synthesis child map: one tag per recorded child of its
identifier (content children of book-typed nodes skipped) plus the
Preamble tag; content records get none. -/
theorem c4_amended (ctx : Ctx) (tree : CollectionTree)
    (hmda : ∀ t ∈ mdAddl ctx.md,
      ¬(t.getD 0 "" = "d" ∨ t.getD 0 "" = "a")) :
    ∀ e ∈ serializeBookstr ctx tree,
      ∃ e0 ∈ (serializeSynth ctx tree).events,
        firstTagVal "d" e0.tags = firstTagVal "d" e.tags ∧
        e.tags.filter (fun t => t.getD 0 "" == "a") =
          aTagsFor (serializeSynth ctx tree) e0 :=
  aTags_exact ctx tree hmda

def c4WCtx : Ctx := Ctx.mk "c4w" "en" true none none

def c4WTree : CollectionTree :=
  CollectionTree.mk [SectionEntry.mk ["W Book", "Verse 1"] [1, 2] "w"] 2

theorem c4_amended_witness :
    (∀ t ∈ mdAddl c4WCtx.md,
      ¬(t.getD 0 "" = "d" ∨ t.getD 0 "" = "a")) ∧
    (∀ e ∈ serializeBookstr c4WCtx c4WTree,
      ∃ e0 ∈ (serializeSynth c4WCtx c4WTree).events,
        firstTagVal "d" e0.tags = firstTagVal "d" e.tags ∧
        e.tags.filter (fun t => t.getD 0 "" == "a") =
          aTagsFor (serializeSynth c4WCtx c4WTree) e0) :=
  ⟨by decide, c4_amended c4WCtx c4WTree (by decide)⟩

def c5bCtx : Ctx := Ctx.mk "c5b" "en" true none none

def c5bTree : CollectionTree :=
  CollectionTree.mk [SectionEntry.mk ["Solo Book", "Intro"] [1, 2] "body"] 2

def c5bBookD : String := dFor [c5bCtx.collectionId, "Solo Book"]

def c5bLeafD : String := dFor [c5bCtx.collectionId, "Solo Book", "Intro"]

def c5bSt : SynthState := serializeSynth c5bCtx c5bTree

def c5bEvents : List Event := serializeBookstr c5bCtx c5bTree

/-- C5 as amended: in general (no address additional_tags) the address
tags of a record whose identifier is typed book never reference a
content kind: each is either the tag of a recorded child of kind other
than 30041 or a Preamble tag with kind 30040.  On the Scenario B shape,
where the book identifier is nonempty, the Preamble chapter is
synthesized, typed chapter, the content child is re-parented under it in
the adjacency map and in its _parent_d tag, and the book's address tags
reference exactly the Preamble. -/
theorem c5_amended (ctx : Ctx) (tree : CollectionTree)
    (hmda : ∀ t ∈ mdAddl ctx.md,
      ¬(t.getD 0 "" = "d" ∨ t.getD 0 "" = "a")) :
    (∀ e ∈ serializeBookstr ctx tree,
      aGetD (serializeSynth ctx tree).dToType
        ((firstTagVal "d" e.tags).getD "") "unknown" = "book" →
      ∀ t ∈ e.tags, t.getD 0 "" = "a" →
        (∃ p : Nat × String, ¬p.1 = 30041 ∧ t = aTagOf p) ∨
        (∃ pd, t = ["a", "30040:" ++ placeholderPubkey ++ ":" ++ pd,
          "", ""])) ∧
    ((∃ pe ∈ c5bEvents, pe.kind = 30040 ∧
        firstTagVal "d" pe.tags = some (c5bBookD ++ "-preamble") ∧
        firstTagVal "title" pe.tags = some "Preamble") ∧
      aGetD c5bSt.dToType (c5bBookD ++ "-preamble") "unknown" = "chapter" ∧
      aGetD c5bSt.parentChildren (c5bBookD ++ "-preamble") [] =
        [(30041, c5bLeafD)] ∧
      aGetD c5bSt.parentChildren c5bBookD [] = [] ∧
      (∃ be ∈ c5bEvents, firstTagVal "d" be.tags = some c5bBookD ∧
        be.tags.filter (fun t => t.getD 0 "" == "a") =
          [["a", "30040:" ++ placeholderPubkey ++ ":" ++
            (c5bBookD ++ "-preamble"), "", ""]]) ∧
      (∃ le ∈ c5bEvents, firstTagVal "d" le.tags = some c5bLeafD ∧
        extractLastTag "_parent_d" le.tags =
          some (c5bBookD ++ "-preamble"))) := by
  constructor
  · intro e he htype t ht hta
    obtain ⟨e0, he0, hfd, hfil⟩ := aTags_exact ctx tree hmda e he
    have htm : t ∈ aTagsFor (serializeSynth ctx tree) e0 := by
      rw [← hfil]
      exact List.mem_filter.mpr ⟨ht, by simpa using hta⟩
    have htype0 : aGetD (serializeSynth ctx tree).dToType
        ((firstTagVal "d" e0.tags).getD "") "unknown" = "book" := by
      rw [hfd]
      exact htype
    revert htm
    unfold aTagsFor
    dsimp only
    split
    · intro htm
      rcases List.mem_append.mp htm with h1 | h1
      · split at h1
        · rcases List.mem_map.mp h1 with ⟨p, hp, hpt⟩
          left
          refine ⟨p, ?_, hpt.symm⟩
          have hc := (List.mem_filter.mp hp).2
          simp only [Bool.not_eq_true', decide_eq_false_iff_not] at hc
          intro h41
          exact hc ⟨htype0, h41⟩
        · exact absurd h1 (List.not_mem_nil t)
      · split at h1
        · right
          simp only [List.mem_singleton] at h1
          exact ⟨_, h1⟩
        · exact absurd h1 (List.not_mem_nil t)
    · intro htm
      exact absurd htm (List.not_mem_nil t)
  · refine ⟨by decide, by decide, by decide, by decide, by decide, by decide⟩

theorem c5_amended_witness :
    (∀ t ∈ mdAddl c5bCtx.md,
      ¬(t.getD 0 "" = "d" ∨ t.getD 0 "" = "a")) ∧
    ((∀ e ∈ serializeBookstr c5bCtx c5bTree,
      aGetD (serializeSynth c5bCtx c5bTree).dToType
        ((firstTagVal "d" e.tags).getD "") "unknown" = "book" →
      ∀ t ∈ e.tags, t.getD 0 "" = "a" →
        (∃ p : Nat × String, ¬p.1 = 30041 ∧ t = aTagOf p) ∨
        (∃ pd, t = ["a", "30040:" ++ placeholderPubkey ++ ":" ++ pd,
          "", ""])) ∧
      ((∃ pe ∈ c5bEvents, pe.kind = 30040 ∧
          firstTagVal "d" pe.tags = some (c5bBookD ++ "-preamble") ∧
          firstTagVal "title" pe.tags = some "Preamble") ∧
        aGetD c5bSt.dToType (c5bBookD ++ "-preamble") "unknown" = "chapter" ∧
        aGetD c5bSt.parentChildren (c5bBookD ++ "-preamble") [] =
          [(30041, c5bLeafD)] ∧
        aGetD c5bSt.parentChildren c5bBookD [] = [] ∧
        (∃ be ∈ c5bEvents, firstTagVal "d" be.tags = some c5bBookD ∧
          be.tags.filter (fun t => t.getD 0 "" == "a") =
            [["a", "30040:" ++ placeholderPubkey ++ ":" ++
              (c5bBookD ++ "-preamble"), "", ""]]) ∧
        (∃ le ∈ c5bEvents, firstTagVal "d" le.tags = some c5bLeafD ∧
          extractLastTag "_parent_d" le.tags =
            some (c5bBookD ++ "-preamble")))) :=
  ⟨by decide, c5_amended c5bCtx c5bTree (by decide)⟩

/-! ## Publish client model (nostr_client.py)

The SHA-256 compression and the Schnorr signing primitive are abstract
function parameters: sha maps a message to its 32 digest bytes (hexdigest
is the hex rendering of digest, as in hashlib), and schnorr maps a
message hash to the 64 signature bytes produced with the private scalar
fixed by the caller. -/

/-- An event prepared for signing: the non-signature fields. -/
structure PreEvent where
  pubkey : String
  created_at : Nat
  kind : Nat
  tags : List (List String)
  content : String
  deriving Repr, DecidableEq

/-- A finalized signed event as written back to the NDJSON file. -/
structure SignedEvent where
  pubkey : String
  created_at : Nat
  kind : Nat
  tags : List (List String)
  content : String
  id : String
  sig : String
  deriving Repr, DecidableEq

def hexDigitChar (n : Nat) : Char :=
  "0123456789abcdef".data.getD n '0'

def byteHex (b : Nat) : List Char :=
  [hexDigitChar (b / 16 % 16), hexDigitChar (b % 16)]

/-- bytes.hex() / hexdigest: two lowercase hex digits per byte. -/
def bytesToHex (bs : List Nat) : String :=
  String.mk (bs.map byteHex).flatten

def hexVal (c : Char) : Nat :=
  if c.isDigit then c.toNat - 48 else c.toNat - 87

def hexPairs : List Char → List Nat
  | a :: b :: rest => (hexVal a * 16 + hexVal b) :: hexPairs rest
  | _ => []

/-- bytes.fromhex restricted to lowercase hex. -/
def hexToBytes (s : String) : List Nat :=
  hexPairs s.data

/-- json.dumps escaping of one character, with ensure_ascii False: only
the quote, the backslash and control characters are escaped. -/
def jsonEscChar (c : Char) : List Char :=
  if c = '"' then ['\\', '"']
  else if c = '\\' then ['\\', '\\']
  else if c.toNat = 8 then ['\\', 'b']
  else if c.toNat = 9 then ['\\', 't']
  else if c.toNat = 10 then ['\\', 'n']
  else if c.toNat = 12 then ['\\', 'f']
  else if c.toNat = 13 then ['\\', 'r']
  else if c.toNat < 32 then '\\' :: 'u' :: '0' :: '0' :: byteHex c.toNat
  else [c]

def jsonStr (s : String) : String :=
  String.mk ('"' :: (s.data.map jsonEscChar).flatten ++ ['"'])

def jsonStrArr (l : List String) : String :=
  "[" ++ String.intercalate "," (l.map jsonStr) ++ "]"

def jsonTagsArr (tags : List (List String)) : String :=
  "[" ++ String.intercalate "," (tags.map jsonStrArr) ++ "]"

/-- The canonical serialization [0, pubkey, created_at, kind, tags,
content] with compact separators. -/
def serializeEventMsg (pubkey : String) (created_at kind : Nat)
    (tags : List (List String)) (content : String) : String :=
  "[0," ++ jsonStr pubkey ++ "," ++ toString created_at ++ "," ++
    toString kind ++ "," ++ jsonTagsArr tags ++ "," ++ jsonStr content ++ "]"

/-- _compute_event_id: hex SHA-256 of the canonical serialization built
from the event fields, the embedded pubkey included. -/
def computeEventId (sha : String → List Nat) (e : PreEvent) : String :=
  bytesToHex (sha (serializeEventMsg e.pubkey e.created_at e.kind e.tags
    e.content))

/-- _sign_event: Schnorr signature over the SHA-256 hash of the canonical
serialization, rebuilt with the pubkey derived from the private key. -/
def signEvent (sha : String → List Nat) (schnorr : List Nat → List Nat)
    (derivedPub : String) (e : PreEvent) : String :=
  bytesToHex (schnorr (sha (serializeEventMsg derivedPub e.created_at
    e.kind e.tags e.content)))

/-- Phase 1 of publish_events_ndjson: every event gets the derived pubkey
and the one current timestamp. -/
def prepareEvent (pub : String) (t : Nat) (d : Event) : PreEvent :=
  PreEvent.mk pub t d.kind d.tags d.content

def publishPrepare (pub : String) (t : Nat) (events : List Event) :
    List PreEvent :=
  events.map (prepareEvent pub t)

/-- Phase 2: compute the id, then sign. -/
def finalizeEvent (sha : String → List Nat) (schnorr : List Nat → List Nat)
    (pub : String) (e : PreEvent) : SignedEvent :=
  SignedEvent.mk e.pubkey e.created_at e.kind e.tags e.content
    (computeEventId sha e) (signEvent sha schnorr pub e)

def publishSign (sha : String → List Nat) (schnorr : List Nat → List Nat)
    (pub : String) (pes : List PreEvent) : List SignedEvent :=
  pes.map (finalizeEvent sha schnorr pub)

/-- The prepare-and-sign pipeline of one publish run at time t. -/
def publishRun (sha : String → List Nat) (schnorr : List Nat → List Nat)
    (pub : String) (t : Nat) (events : List Event) : List SignedEvent :=
  publishSign sha schnorr pub (publishPrepare pub t events)

/-- The non-signature fields of a signed event. -/
def nonSigFields (e : SignedEvent) : PreEvent :=
  PreEvent.mk e.pubkey e.created_at e.kind e.tags e.content

/-- qc_check_events republish path: the missing stored records are written
to a temporary NDJSON file and pushed through publish_events_ndjson,
whose prepare phase reads only kind, tags and content.  The a-tag pubkey
substitution pass that precedes preparation is the identity on records
already rewritten by the original publish with the same key, and is not
modelled. -/
def republishRun (sha : String → List Nat) (schnorr : List Nat → List Nat)
    (pub : String) (t : Nat) (stored : List SignedEvent) :
    List SignedEvent :=
  publishRun sha schnorr pub t
    (stored.map (fun st => Event.mk st.kind st.tags st.content))

theorem hexVal_hexDigitChar (n : Nat) (h : n < 16) :
    hexVal (hexDigitChar n) = n := by
  interval_cases n <;> rfl

theorem hexToBytes_bytesToHex (bs : List Nat) (h : ∀ b ∈ bs, b < 256) :
    hexToBytes (bytesToHex bs) = bs := by
  induction bs with
  | nil => rfl
  | cons b rest ih =>
    have hb : b < 256 := h b (List.mem_cons_self b rest)
    have hrest : ∀ x ∈ rest, x < 256 :=
      fun x hx => h x (List.mem_cons_of_mem b hx)
    unfold hexToBytes bytesToHex at ih ⊢
    simp only [List.map_cons, List.flatten]
    show hexPairs (byteHex b ++ (rest.map byteHex).flatten) = b :: rest
    unfold byteHex
    rw [List.cons_append, List.cons_append, List.nil_append]
    show (hexVal (hexDigitChar (b / 16 % 16)) * 16 +
      hexVal (hexDigitChar (b % 16))) :: hexPairs ((rest.map byteHex).flatten)
      = b :: rest
    rw [hexVal_hexDigitChar _ (Nat.mod_lt _ (by omega)),
      hexVal_hexDigitChar _ (Nat.mod_lt _ (by omega))]
    rw [ih hrest]
    congr 1
    have h16 : b / 16 % 16 = b / 16 := Nat.mod_eq_of_lt (by omega)
    rw [h16]
    omega

/-! ## Claim C6: sign and verify round trip -/

/-- C6: for every record finalized by one publish run, recomputing the id
from the non-signature fields reproduces it; the id bytes are the SHA-256
hash of the canonical serialization, the signature is the Schnorr
signature over exactly those bytes, and the embedded pubkey is the one
derived from the private key. -/
theorem c6_confirmed (sha : String → List Nat)
    (schnorr : List Nat → List Nat) (pub : String) (t : Nat)
    (events : List Event) (hsha : ∀ s, ∀ b ∈ sha s, b < 256) :
    ∀ e ∈ publishRun sha schnorr pub t events,
      computeEventId sha (nonSigFields e) = e.id ∧
      e.pubkey = pub ∧
      hexToBytes e.id =
        sha (serializeEventMsg e.pubkey e.created_at e.kind e.tags
          e.content) ∧
      e.sig = bytesToHex (schnorr (hexToBytes e.id)) := by
  intro e he
  unfold publishRun publishSign publishPrepare at he
  rcases List.mem_map.mp he with ⟨pe, hpe, hpee⟩
  rcases List.mem_map.mp hpe with ⟨d, hd, hdp⟩
  subst hdp
  subst hpee
  have h3 : hexToBytes (finalizeEvent sha schnorr pub
        (prepareEvent pub t d)).id =
      sha (serializeEventMsg pub t d.kind d.tags d.content) :=
    hexToBytes_bytesToHex _ (hsha _)
  refine ⟨rfl, rfl, h3, ?_⟩
  rw [h3]
  rfl

def c6Sha : String → List Nat := fun s => List.replicate 32 (s.length % 256)

def c6Schnorr : List Nat → List Nat := fun h => h ++ h

def c6Ev : Event := Event.mk 30041 [["d", "w"]] "hello"

def c6E0 : SignedEvent :=
  (publishRun c6Sha c6Schnorr "pk" 5 [c6Ev]).getD 0
    (SignedEvent.mk "" 0 0 [] "" "" "")

theorem c6_confirmed_witness :
    computeEventId c6Sha (nonSigFields c6E0) = c6E0.id ∧
    c6E0.pubkey = "pk" ∧
    hexToBytes c6E0.id =
      c6Sha (serializeEventMsg c6E0.pubkey c6E0.created_at c6E0.kind
        c6E0.tags c6E0.content) ∧
    c6E0.sig = bytesToHex (c6Schnorr (hexToBytes c6E0.id)) :=
  c6_confirmed c6Sha c6Schnorr "pk" 5 [c6Ev]
    (fun s b hb => by
      simp only [c6Sha, List.mem_replicate] at hb
      omega)
    c6E0 (by decide)

/-! ## Claim C7: one timestamp per publish run -/

/-- C7: every pair of records signed in the same publish run carries the
same created_at, the single time captured at the start of the prepare
phase. -/
theorem c7_confirmed (sha : String → List Nat)
    (schnorr : List Nat → List Nat) (pub : String) (t : Nat)
    (events : List Event) :
    ∀ e1 ∈ publishRun sha schnorr pub t events,
      ∀ e2 ∈ publishRun sha schnorr pub t events,
        e1.created_at = e2.created_at ∧ e1.created_at = t := by
  intro e1 h1 e2 h2
  unfold publishRun publishSign publishPrepare at h1 h2
  rcases List.mem_map.mp h1 with ⟨p1, hp1, hpe1⟩
  rcases List.mem_map.mp hp1 with ⟨d1, hd1, hdp1⟩
  rcases List.mem_map.mp h2 with ⟨p2, hp2, hpe2⟩
  rcases List.mem_map.mp hp2 with ⟨d2, hd2, hdp2⟩
  subst hdp1
  subst hpe1
  subst hdp2
  subst hpe2
  exact ⟨rfl, rfl⟩

def c7Run : List SignedEvent :=
  publishRun c6Sha c6Schnorr "pk" 7 [c6Ev, Event.mk 30040 [] ""]

def c7E1 : SignedEvent := c7Run.getD 0 (SignedEvent.mk "" 0 0 [] "" "" "")

def c7E2 : SignedEvent := c7Run.getD 1 (SignedEvent.mk "" 0 0 [] "" "" "")

theorem c7_confirmed_witness :
    c7E1.created_at = c7E2.created_at ∧ c7E1.created_at = 7 :=
  c7_confirmed c6Sha c6Schnorr "pk" 7 [c6Ev, Event.mk 30040 [] ""]
    c7E1 (by decide) c7E2 (by decide)

/-! ## Claim C2: republished records are re-timestamped and re-signed -/

def c2Sha : String → List Nat := fun _ => List.replicate 32 0

def c2Schnorr : List Nat → List Nat := fun _ => List.replicate 64 1

def c2Stored : SignedEvent :=
  SignedEvent.mk "pub0" 100 30041 [["d", "x"]] "c"
    "1111111111111111111111111111111111111111111111111111111111111111"
    "2222222222222222222222222222222222222222222222222222222222222222"

/-- C2 counterexample: a missing stored record republished at a later
time is not resubmitted unchanged: the republish path feeds it back
through the publish prepare phase, which stamps the current time and
recomputes id and signature, so all three differ from the stored ones. -/
theorem c2_counterexample :
    ∃ e ∈ republishRun c2Sha c2Schnorr "pub0" 200 [c2Stored],
      ¬e.created_at = c2Stored.created_at ∧
      ¬e.id = c2Stored.id ∧ ¬e.sig = c2Stored.sig := by
  decide

/-- C2 as amended: a republished missing record keeps the stored kind,
tag list and content, but carries the republish-time timestamp, the
submitting pubkey, and a freshly computed identifier and signature. -/
theorem c2_amended (sha : String → List Nat)
    (schnorr : List Nat → List Nat) (pub : String) (t : Nat)
    (stored : List SignedEvent) :
    ∀ e ∈ republishRun sha schnorr pub t stored,
      ∃ st ∈ stored,
        e.kind = st.kind ∧ e.tags = st.tags ∧ e.content = st.content ∧
        e.created_at = t ∧ e.pubkey = pub ∧
        e.id = computeEventId sha
          (PreEvent.mk pub t st.kind st.tags st.content) ∧
        e.sig = signEvent sha schnorr pub
          (PreEvent.mk pub t st.kind st.tags st.content) := by
  intro e he
  unfold republishRun publishRun publishSign publishPrepare at he
  rcases List.mem_map.mp he with ⟨pe, hpe, hpee⟩
  rcases List.mem_map.mp hpe with ⟨d, hd, hdp⟩
  rcases List.mem_map.mp hd with ⟨st, hst, hstd⟩
  subst hstd
  subst hdp
  subst hpee
  exact ⟨st, hst, rfl, rfl, rfl, rfl, rfl, rfl, rfl⟩

def c2Re : SignedEvent :=
  (republishRun c2Sha c2Schnorr "pub0" 200 [c2Stored]).getD 0
    (SignedEvent.mk "" 0 0 [] "" "" "")

theorem c2_amended_witness :
    ∃ st ∈ [c2Stored],
      c2Re.kind = st.kind ∧ c2Re.tags = st.tags ∧
      c2Re.content = st.content ∧
      c2Re.created_at = 200 ∧ c2Re.pubkey = "pub0" ∧
      c2Re.id = computeEventId c2Sha
        (PreEvent.mk "pub0" 200 st.kind st.tags st.content) ∧
      c2Re.sig = signEvent c2Sha c2Schnorr "pub0"
        (PreEvent.mk "pub0" 200 st.kind st.tags st.content) :=
  c2_amended c2Sha c2Schnorr "pub0" 200 [c2Stored] c2Re (by decide)

/-! ## Claim C3: the published-but-unverified outcome is unreachable -/

/-- The dictionary publish_events_ndjson returns: it is initialized to
verified false and error none, and only those two keys are ever set; the
keys cmd_publish reads for the distinct outcomes are modelled as optional
fields that the function never populates. -/
structure PubResult where
  verified : Bool
  error : Option String
  interrupted : Option Bool := none
  publish_succeeded : Option Bool := none
  published_count : Option Nat := none
  deriving Repr, DecidableEq

/-- The value publish_events_ndjson returns: only verified and error. -/
def publishReturn (verified : Bool) (err : Option String) : PubResult :=
  { verified := verified, error := err }

/-- cmd_publish exit code: 130 on interrupted, 0 on verified, 0 with the
published-but-unverified message when publish_succeeded and a positive
published_count are present, 1 otherwise. -/
def cmdPublishExit (v : PubResult) : Nat :=
  if v.interrupted.getD false then 130
  else if v.verified then 0
  else if (v.publish_succeeded.getD false) ∧ (v.published_count.getD 0) > 0
    then 0
  else 1

/-- C3: the published-but-unverified branch of cmd_publish is dead code.
publish_events_ndjson never sets the publish_succeeded, published_count
or interrupted keys it tests, so every completed-but-unverified run is
reported with exit code 1, the same as full failure. -/
theorem c3_bug :
    ∀ err : Option String,
      cmdPublishExit (publishReturn false err) = 1 ∧
      (publishReturn false err).publish_succeeded = none ∧
      (publishReturn false err).published_count = none ∧
      (publishReturn false err).interrupted = none :=
  fun _ => ⟨rfl, rfl, rfl, rfl⟩

/-! ## Claim C9: QC missing classification -/

/-- One record of the QC input file: its stored id (empty when absent)
and tags. -/
structure QCInput where
  id : String
  tags : List (List String)
  deriving Repr, DecidableEq

/-- The comparison loop of qc_check_events: count a record as found when
its truthy id is in the exact-match set or its truthy d tag is in the
durable-key set, and append it to the missing list exactly when its
truthy id is not in the exact-match set. -/
def qcClassify (foundById foundByD : List String)
    (events : List QCInput) : Nat × List QCInput :=
  events.foldl
    (fun acc ev =>
      let dTag := (firstTagVal "d" ev.tags).getD ""
      let found :=
        if ev.id ≠ "" ∧ ev.id ∈ foundById then acc.1 + 1
        else if dTag ≠ "" ∧ dTag ∈ foundByD then acc.1 + 1
        else acc.1
      let missing :=
        if ev.id ≠ "" ∧ ¬ev.id ∈ foundById then acc.2 ++ [ev] else acc.2
      (found, missing))
    (0, [])

theorem qcClassify_missing_aux (foundById foundByD : List String) :
    ∀ (events : List QCInput) (acc : Nat × List QCInput),
      (events.foldl
        (fun acc ev =>
          let dTag := (firstTagVal "d" ev.tags).getD ""
          let found :=
            if ev.id ≠ "" ∧ ev.id ∈ foundById then acc.1 + 1
            else if dTag ≠ "" ∧ dTag ∈ foundByD then acc.1 + 1
            else acc.1
          let missing :=
            if ev.id ≠ "" ∧ ¬ev.id ∈ foundById then acc.2 ++ [ev] else acc.2
          (found, missing))
        acc).2 =
      acc.2 ++ events.filter
        (fun ev => decide (ev.id ≠ "" ∧ ¬ev.id ∈ foundById)) := by
  intro events
  induction events with
  | nil => intro acc; simp
  | cons ev rest ih =>
    intro acc
    rw [List.foldl_cons, List.filter_cons]
    by_cases hc : ev.id ≠ "" ∧ ¬ev.id ∈ foundById
    · rw [ih]
      dsimp only
      rw [if_pos hc]
      simp [hc, List.append_assoc]
    · rw [ih]
      dsimp only
      rw [if_neg hc]
      simp [hc]

/-- C9: a record with an identifier is in the missing list exactly when
its identifier is not in the exact-match result set, regardless of the
durable-key result set; a record whose identifier the exact-match pass
returned is never missing. -/
theorem c9_confirmed (foundById foundByD foundByD2 : List String)
    (events : List QCInput) (ev : QCInput) (hev : ev ∈ events)
    (hid : ev.id ≠ "") :
    (ev ∈ (qcClassify foundById foundByD events).2 ↔ ¬ev.id ∈ foundById) ∧
    (qcClassify foundById foundByD events).2 =
      (qcClassify foundById foundByD2 events).2 ∧
    (ev.id ∈ foundById → ¬ev ∈ (qcClassify foundById foundByD events).2) := by
  have h1 := qcClassify_missing_aux foundById foundByD events (0, [])
  have h2 := qcClassify_missing_aux foundById foundByD2 events (0, [])
  have hm : (qcClassify foundById foundByD events).2 =
      events.filter (fun ev => decide (ev.id ≠ "" ∧ ¬ev.id ∈ foundById)) := by
    unfold qcClassify
    rw [h1]
    simp
  have hm2 : (qcClassify foundById foundByD2 events).2 =
      events.filter (fun ev => decide (ev.id ≠ "" ∧ ¬ev.id ∈ foundById)) := by
    unfold qcClassify
    rw [h2]
    simp
  refine ⟨?_, by rw [hm, hm2], ?_⟩
  · rw [hm]
    constructor
    · intro hmem
      have := (List.mem_filter.mp hmem).2
      simp only [decide_eq_true_eq] at this
      exact this.2
    · intro hnid
      exact List.mem_filter.mpr ⟨hev, by simp [hid, hnid]⟩
  · intro hin hmem
    rw [hm] at hmem
    have := (List.mem_filter.mp hmem).2
    simp only [decide_eq_true_eq] at this
    exact this.2 hin

def c9Ev : QCInput := QCInput.mk "id1" [["d", "x"]]

theorem c9_confirmed_witness :
    (c9Ev ∈ (qcClassify ["id2"] ["x"] [c9Ev]).2 ↔ ¬"id1" ∈ ["id2"]) ∧
    (qcClassify ["id2"] ["x"] [c9Ev]).2 = (qcClassify ["id2"] [] [c9Ev]).2 ∧
    ("id1" ∈ ["id2"] → ¬c9Ev ∈ (qcClassify ["id2"] ["x"] [c9Ev]).2) :=
  c9_confirmed ["id2"] ["x"] [] [c9Ev] c9Ev (by decide) (by decide)

end Scriptorium
